import Mathlib

/-!
Verification of the ai-agent-schema workflow core: a shallow embedding of the
workflow data model (src/schemas/workflow.schema.ts, src/schemas/agent.schema.ts),
the validator and graph analysis utilities (src/utils/workflow-validator.ts),
and the three adapters (src/adapters/n8n.adapter.ts, langchain.adapter.ts,
crewai.adapter.ts), together with proofs about them.

JavaScript runtime structures are modelled as follows:
* `Map<string, T>` becomes an association list `List (String × T)`; `Map.set`
  overwrites in place (keeping the original insertion position) or appends.
* `Set<string>` becomes a duplicate-free `List String` in insertion order.
* plain objects used as string-keyed records also become association lists
  with `Map.set`-style insertion (JS property assignment semantics).
* JS numbers are modelled as `ℚ` (no claim depends on float rounding).
* `a || b` on strings is modelled by `jsOrStr` (empty string is falsy).
* recursive / looping code is modelled with an explicit fuel parameter that is
  always instantiated with a bound that dominates the real recursion depth, so
  the fuel-exhaustion branch is unreachable (this is proved where a theorem
  needs it).
-/

namespace AAS

/-- Scalar runtime value, the carrier for `unknown`-typed data (metadata bags,
variable default values, passthrough config entries).  The code under
verification only ever copies such values around without inspecting them, so a
scalar carrier suffices. -/
inductive JsVal where
  | nul : JsVal
  | bool (b : Bool) : JsVal
  | num (q : ℚ) : JsVal
  | str (s : String) : JsVal
deriving DecidableEq

/-- JS `a || b` for strings: the empty string is falsy. -/
def jsOrStr (a b : String) : String := if a = "" then b else a

/-- JS string truthiness for an optional string (undefined and "" are falsy). -/
def jsTruthy : Option String → Bool
  | none => false
  | some s => s != ""

/-- Does the association list have the key (JS `Map.has` / `in`)? -/
def hasKey {κ α : Type} [BEq κ] (m : List (κ × α)) (k : κ) : Bool :=
  m.any (fun p => p.1 == k)

/-- JS `Map.get` / property read: first binding of the key. -/
def mapGet? {κ α : Type} [BEq κ] (m : List (κ × α)) (k : κ) : Option α :=
  (m.find? (fun p => p.1 == k)).map Prod.snd

/-- `Map.get(k) ?? d`. -/
def mapGetD {κ α : Type} [BEq κ] (m : List (κ × α)) (k : κ) (d : α) : α :=
  (mapGet? m k).getD d

/-- JS `Map.set` / property assignment: overwrite in place (keeping the key's
original insertion position) if the key exists, else append. -/
def mapSet {κ α : Type} [BEq κ] (m : List (κ × α)) (k : κ) (v : α) :
    List (κ × α) :=
  if hasKey m k then m.map (fun p => if p.1 == k then (k, v) else p)
  else m ++ [(k, v)]

/-- JS `Set.add`: append if absent, in insertion order. -/
def setAdd (l : List String) (x : String) : List String :=
  if x ∈ l then l else l ++ [x]

/-- JS `String.prototype.includes`: substring test. -/
def strIncludes (hay needle : String) : Bool :=
  hay.toList.tails.any (fun t => needle.toList.isPrefixOf t)

/-- JS `Object.fromEntries`: later entries overwrite earlier ones in place. -/
def jsFromEntries (l : List (String × String)) : List (String × String) :=
  l.foldl (fun m p => mapSet m p.1 p.2) []

/-! ## Agent data model (src/schemas/agent.schema.ts) -/

/-- `AIProviderSchema`. -/
inductive AIProvider where
  | openai | anthropic | google | mistral | cohere | azureOpenai | bedrock
  | custom
deriving DecidableEq

/-- The provider string as it appears in the TS enum. -/
def AIProvider.str : AIProvider → String
  | .openai => "openai"
  | .anthropic => "anthropic"
  | .google => "google"
  | .mistral => "mistral"
  | .cohere => "cohere"
  | .azureOpenai => "azure-openai"
  | .bedrock => "bedrock"
  | .custom => "custom"

/-- `MemoryConfigSchema.type`. -/
inductive MemoryType where
  | buffer | summary | vector | none
deriving DecidableEq

/-- `MemoryConfigSchema`. -/
structure MemoryConfig where
  type : MemoryType
  maxMessages : Option ℤ := Option.none
  persistent : Option Bool := Option.none
deriving DecidableEq

/-- `ToolSchema`. -/
structure Tool where
  id : String
  name : String
  description : String
  parameters : Option (List (String × JsVal)) := Option.none
  requiresAuth : Option Bool := Option.none
deriving DecidableEq

/-- `ModelParametersSchema`. -/
structure ModelParameters where
  temperature : Option ℚ := Option.none
  maxTokens : Option ℤ := Option.none
  topP : Option ℚ := Option.none
  frequencyPenalty : Option ℚ := Option.none
  presencePenalty : Option ℚ := Option.none
  stopSequences : Option (List String) := Option.none
deriving DecidableEq

/-- `AgentConfigSchema`. -/
structure AgentConfig where
  id : String
  name : String
  description : Option String := Option.none
  provider : AIProvider
  model : String
  systemPrompt : Option String := Option.none
  parameters : Option ModelParameters := Option.none
  tools : Option (List Tool) := Option.none
  memory : Option MemoryConfig := Option.none
  connections : Option (List String) := Option.none
  metadata : Option (List (String × JsVal)) := Option.none
deriving DecidableEq

/-! ## Workflow data model (src/schemas/workflow.schema.ts) -/

/-- `WorkflowNodeSchema.type`. -/
inductive NodeType where
  | agent | trigger | condition | loop | endNode
deriving DecidableEq

/-- `NodePositionSchema`. -/
structure NodePosition where
  x : ℚ
  y : ℚ
deriving DecidableEq

/-- `WorkflowNodeSchema`. -/
structure WorkflowNode where
  id : String
  type : NodeType
  agentId : Option String := Option.none
  agent : Option AgentConfig := Option.none
  position : Option NodePosition := Option.none
  metadata : Option (List (String × JsVal)) := Option.none
deriving DecidableEq

/-- `WorkflowConnectionSchema`. -/
structure WorkflowConnection where
  id : String
  sourceId : String
  targetId : String
  sourceHandle : Option String := Option.none
  targetHandle : Option String := Option.none
  condition : Option String := Option.none
  label : Option String := Option.none
deriving DecidableEq

/-- `WorkflowTriggerSchema.type`. -/
inductive TriggerType where
  | manual | schedule | webhook | event
deriving DecidableEq

/-- The trigger type string as it appears in the TS enum. -/
def TriggerType.str : TriggerType → String
  | .manual => "manual"
  | .schedule => "schedule"
  | .webhook => "webhook"
  | .event => "event"

/-- `WorkflowTriggerSchema.config` (passthrough object). -/
structure TriggerConfig where
  schedule : Option String := Option.none
  webhookUrl : Option String := Option.none
  eventName : Option String := Option.none
  extra : List (String × JsVal) := []
deriving DecidableEq

/-- `WorkflowTriggerSchema`. -/
structure WorkflowTrigger where
  type : TriggerType
  config : Option TriggerConfig := Option.none
deriving DecidableEq

/-- `WorkflowVariableSchema.type`. -/
inductive VarType where
  | string | number | boolean | object | array
deriving DecidableEq

/-- The variable type string as it appears in the TS enum. -/
def VarType.str : VarType → String
  | .string => "string"
  | .number => "number"
  | .boolean => "boolean"
  | .object => "object"
  | .array => "array"

/-- `WorkflowVariableSchema`. -/
structure WorkflowVariable where
  name : String
  type : VarType
  defaultValue : Option JsVal := Option.none
  description : Option String := Option.none
  required : Option Bool := Option.none
deriving DecidableEq

/-- `WorkflowConfigSchema` (object part). -/
structure WorkflowConfig where
  id : String
  name : String
  description : Option String := Option.none
  version : Option String := Option.none
  nodes : List WorkflowNode
  connections : List WorkflowConnection
  trigger : Option WorkflowTrigger := Option.none
  -- the `variables` field of the TS schema (`variables` is a Lean keyword)
  vars : Option (List WorkflowVariable) := Option.none
  tags : Option (List String) := Option.none
  metadata : Option (List (String × JsVal)) := Option.none
deriving DecidableEq

/-- The list of node ids of a workflow, in declaration order. -/
def nodeIds (w : WorkflowConfig) : List String := w.nodes.map (fun n => n.id)

/-! ## Workflow validation (src/utils/workflow-validator.ts, lines 31-61, and
the value-level checks of `WorkflowConfigSchema`).

The input is modelled at the typed level: type-shape errors of `Zod.parse` are
subsumed by typing, while every value-level check of the schema (minimum string
lengths, the non-empty `nodes` array, and the two `.refine` invariants) is
modelled explicitly.  The `z.string().url()` format check on
`trigger.config.webhookUrl` is the one value-level check not modelled (no claim
touches it).  On success, `Zod.parse` returns the parsed value, which at the
typed level is the input itself. -/

/-- One validation issue: a path and a message, as in the mapped `ZodError`. -/
structure WIssue where
  path : List String
  message : String
deriving DecidableEq

/-- `true` unless the optional value is present and fails the check. -/
def optAll {α : Type} (o : Option α) (f : α → Bool) : Bool :=
  match o with
  | Option.none => true
  | some a => f a

/-- Value-level checks of `ModelParametersSchema` (ranges). -/
def modelParametersOk (p : ModelParameters) : Bool :=
  optAll p.temperature (fun t => decide (0 ≤ t ∧ t ≤ 2)) &&
  optAll p.maxTokens (fun m => decide (0 < m)) &&
  optAll p.topP (fun t => decide (0 ≤ t ∧ t ≤ 1)) &&
  optAll p.frequencyPenalty (fun f => decide (-2 ≤ f ∧ f ≤ 2)) &&
  optAll p.presencePenalty (fun f => decide (-2 ≤ f ∧ f ≤ 2))

/-- Value-level checks of `MemoryConfigSchema`. -/
def memoryConfigOk (m : MemoryConfig) : Bool :=
  optAll m.maxMessages (fun k => decide (0 < k))

/-- Value-level checks of `ToolSchema`. -/
def toolOk (t : Tool) : Bool :=
  (t.id != "") && (t.name != "")

/-- Value-level checks of `AgentConfigSchema`. -/
def agentConfigOk (a : AgentConfig) : Bool :=
  (a.id != "") && (a.name != "") && (a.model != "") &&
  optAll a.parameters modelParametersOk &&
  optAll a.tools (fun ts => ts.all toolOk) &&
  optAll a.memory memoryConfigOk

/-- Value-level checks of `WorkflowNodeSchema`. -/
def nodeOk (n : WorkflowNode) : Bool :=
  (n.id != "") && optAll n.agent agentConfigOk

/-- Value-level checks of `WorkflowConnectionSchema`. -/
def connectionOk (c : WorkflowConnection) : Bool :=
  (c.id != "") && (c.sourceId != "") && (c.targetId != "")

/-- Value-level checks of `WorkflowVariableSchema`. -/
def variableOk (v : WorkflowVariable) : Bool :=
  v.name != ""

/-- Value-level checks of the plain object part of `WorkflowConfigSchema`
(before the two `.refine` steps). -/
def baseSchemaOk (w : WorkflowConfig) : Bool :=
  (w.id != "") && (w.name != "") && (!w.nodes.isEmpty) &&
  w.nodes.all nodeOk && w.connections.all connectionOk &&
  optAll w.vars (fun vs => vs.all variableOk)

/-- First `.refine`: every connection endpoint names an existing node. -/
def connectionsResolve (w : WorkflowConfig) : Bool :=
  w.connections.all (fun c =>
    (nodeIds w).contains c.sourceId && (nodeIds w).contains c.targetId)

/-- Second `.refine`: agent nodes carry an `agentId` or an inline agent.
JS truthiness: an empty-string `agentId` is falsy. -/
def agentNodesHaveRef (w : WorkflowConfig) : Bool :=
  (w.nodes.filter (fun n => n.type == NodeType.agent)).all (fun n =>
    jsTruthy n.agentId || n.agent.isSome)

/-- All schema checks of `WorkflowConfigSchema.parse`. -/
def workflowSchemaOk (w : WorkflowConfig) : Bool :=
  baseSchemaOk w && connectionsResolve w && agentNodesHaveRef w

/-- `WorkflowValidationResult` (src/types/workflow.ts). -/
inductive WVResult where
  | success (data : WorkflowConfig)
  | failure (message : String) (issues : List WIssue)
deriving DecidableEq

/-- Is the result a success? -/
def WVResult.isSuccess : WVResult → Bool
  | .success _ => true
  | .failure _ _ => false

/-- Issues reported for a failed parse: the refinement messages of the schema
(field-level issues are summarised by a single base issue; no claim depends on
the exact issue list). -/
def workflowIssues (w : WorkflowConfig) : List WIssue :=
  (if baseSchemaOk w then [] else [⟨[], "Invalid input"⟩]) ++
  (if baseSchemaOk w && !connectionsResolve w then
    [⟨["connections"], "All connections must reference existing nodes"⟩] else []) ++
  (if baseSchemaOk w && !agentNodesHaveRef w then
    [⟨["nodes"], "Agent nodes must have either agentId or agent configuration"⟩]
   else [])

/-- `validateWorkflowConfig` (src/utils/workflow-validator.ts, lines 31-61):
parse against the schema; on success return the parsed data, on a `ZodError`
return a failure with message and issues. -/
def validateWorkflowConfig (w : WorkflowConfig) : WVResult :=
  if workflowSchemaOk w then .success w
  else .failure "Workflow validation failed" (workflowIssues w)

/-! ## Graph analysis (src/utils/workflow-validator.ts, lines 103-240) -/

/-- The adjacency `Map<string, Set<string>>` built by `detectWorkflowCycles`
and `getWorkflowTopologicalOrder`: one (possibly overwritten) key per node, then
for each connection whose source is a key, add the target to that key's set. -/
def buildAdj (w : WorkflowConfig) : List (String × List String) :=
  let m0 := w.nodes.foldl (fun m n => mapSet m n.id []) []
  w.connections.foldl (fun m c =>
    if hasKey m c.sourceId then
      mapSet m c.sourceId (setAdd (mapGetD m c.sourceId []) c.targetId)
    else m) m0

/-- `graph.get(x) || new Set()`. -/
def adjGetD (adj : List (String × List String)) (x : String) : List String :=
  mapGetD adj x []

/-- Total number of adjacency entries. -/
def adjSize (adj : List (String × List String)) : Nat :=
  (adj.map (fun p => p.2.length)).sum

/-- The nested `hasCycle` DFS of `detectWorkflowCycles` (lines 119-136),
written as a single fuelled recursion over the pending neighbour list of the
node `u` currently on top of the recursion stack.  State: `v` is the `visited`
set, `s` the `recursionStack` (both insertion-ordered, newest first for `s`).
Returns the boolean together with the updated `visited` and `recursionStack`.
The fuel strictly exceeds the recursion depth whenever it is instantiated by
`detectWorkflowCycles` (see `dfsFuel`), so the fuel-exhaustion branch is
unreachable there. -/
def dfsNbrs (adj : List (String × List String)) :
    Nat → List String → String → List String → List String →
    Bool × List String × List String
  | _, [], u, v, s => (false, v, s.erase u)
  | 0, _ :: _, _, v, s => (true, v, s)
  | fuel + 1, n :: rest, u, v, s =>
      if n ∈ v then
        if n ∈ s then (true, v, s) else dfsNbrs adj fuel rest u v s
      else
        match dfsNbrs adj fuel (adjGetD adj n) n (n :: v) (n :: s) with
        | (true, v', s') => (true, v', s')
        | (false, v', s') => dfsNbrs adj fuel rest u v' s'

/-- Entering `hasCycle(u)`: mark `u` visited and on the stack, then walk its
neighbours. -/
def hasCycleFrom (adj : List (String × List String)) (fuel : Nat) (u : String)
    (v s : List String) : Bool × List String × List String :=
  dfsNbrs adj fuel (adjGetD adj u) u (u :: v) (u :: s)

/-- The outer loop of `detectWorkflowCycles` (lines 138-144): DFS from every
unvisited key, sharing `visited` and the recursion stack. -/
def detectLoop (adj : List (String × List String)) (fuel : Nat) :
    List String → List String → List String → Bool
  | [], _, _ => false
  | k :: ks, v, s =>
      if k ∈ v then detectLoop adj fuel ks v s
      else
        match hasCycleFrom adj fuel k v s with
        | (true, _, _) => true
        | (false, v', s') => detectLoop adj fuel ks v' s'

/-- Fuel that strictly dominates the depth of the neighbour-list recursion
(proved in `dfs_fuel_enough`). -/
def dfsFuel (adj : List (String × List String)) : Nat :=
  adjSize adj + (adj.length + adjSize adj) * (adjSize adj + 1) + 1

/-- `detectWorkflowCycles` (src/utils/workflow-validator.ts, lines 103-147). -/
def detectWorkflowCycles (w : WorkflowConfig) : Bool :=
  let adj := buildAdj w
  detectLoop adj (dfsFuel adj) (adj.map (fun p => p.1)) [] []

/-- The `inDegree` map of `getWorkflowTopologicalOrder` (lines 173-185): keys
for every node (0), then `+1` on every connection's target (creating the key if
the target is not a node).  Values are integers, as in JS, where decrementing
can go below zero. -/
def buildInDeg (w : WorkflowConfig) : List (String × ℤ) :=
  let m0 := w.nodes.foldl (fun m n => mapSet m n.id (0 : ℤ)) []
  w.connections.foldl (fun m c =>
    mapSet m c.targetId (mapGetD m c.targetId 0 + 1)) m0

/-- One pop of Kahn's loop (lines 198-210): append the queue head to the
result, decrement each of its neighbours' in-degrees, enqueueing the ones that
reach exactly zero. -/
def kahnStep (adj : List (String × List String)) (n : String)
    (queue : List String) (deg : List (String × ℤ)) :
    List String × List (String × ℤ) :=
  (adjGetD adj n).foldl
    (fun (acc : List String × List (String × ℤ)) m =>
      let nd := mapGetD acc.2 m 0 - 1
      (if nd == 0 then acc.1 ++ [m] else acc.1, mapSet acc.2 m nd))
    (queue, deg)

/-- The while-loop of Kahn's algorithm, fuelled (fuel strictly exceeds the
number of iterations whenever instantiated by `getWorkflowTopologicalOrder`). -/
def kahnLoop (adj : List (String × List String)) :
    Nat → List String → List String → List (String × ℤ) → List String
  | _, [], result, _ => result
  | 0, _ :: _, result, _ => result
  | fuel + 1, n :: queue, result, deg =>
      let (queue', deg') := kahnStep adj n queue deg
      kahnLoop adj fuel queue' (result ++ [n]) deg'

/-- `getWorkflowTopologicalOrder` (src/utils/workflow-validator.ts, lines
165-213): null on detected cycles, else Kahn's algorithm, returning the result
only if it covers exactly `workflow.nodes.length` entries. -/
def getWorkflowTopologicalOrder (w : WorkflowConfig) : Option (List String) :=
  if detectWorkflowCycles w then Option.none
  else
    let adj := buildAdj w
    let deg := buildInDeg w
    let queue := (deg.filter (fun p => p.2 == 0)).map (fun p => p.1)
    let result := kahnLoop adj (deg.length + 1) queue [] deg
    if result.length == w.nodes.length then some result else Option.none

/-- `findDisconnectedNodes` (lines 229-240). -/
def findDisconnectedNodes (w : WorkflowConfig) : List String :=
  let connected := w.connections.foldl
    (fun l c => setAdd (setAdd l c.sourceId) c.targetId) []
  (w.nodes.map (fun n => n.id)).filter (fun i => !connected.contains i)

/-! ## The mathematical edge relation of a workflow graph -/

/-- The directed edge relation realised by the adjacency map: a connection
contributes an edge exactly when its source is a node id (the build step
silently ignores connections whose source is not a key). -/
def EdgeW (w : WorkflowConfig) (x y : String) : Prop :=
  x ∈ nodeIds w ∧ ∃ c ∈ w.connections, c.sourceId = x ∧ c.targetId = y

instance (w : WorkflowConfig) (x y : String) : Decidable (EdgeW w x y) := by
  unfold EdgeW
  infer_instance

/-- The workflow's connection graph contains a directed cycle. -/
def HasCycleW (w : WorkflowConfig) : Prop :=
  ∃ x, Relation.TransGen (EdgeW w) x x


/-! ## CrewAI adapter (src/adapters/crewai.adapter.ts) -/

/-- `CrewAIProcess`. -/
inductive CrewAIProcess where
  | sequential | hierarchical | consensual
deriving DecidableEq

/-- `CrewAIAdapterOptions`. -/
structure CrewAIAdapterOptions where
  process : Option CrewAIProcess := Option.none
  verbose : Option Bool := Option.none
  enableMemory : Option Bool := Option.none
  enableCache : Option Bool := Option.none
  maxRpm : Option ℚ := Option.none
deriving DecidableEq

/-- The `llm` record of a CrewAI agent. -/
structure CrewLLM where
  model : String
  temperature : ℚ
  maxTokens : ℤ
  topP : ℚ
deriving DecidableEq

/-- `CrewAIAgent` (the fields `mapAgentToCrewAgent` constructs). -/
structure CrewAIAgent where
  role : String
  goal : String
  backstory : String
  tools : Option (List String)
  llm : CrewLLM
  verbose : Bool
  allowDelegation : Bool
  maxIter : ℤ
  memory : Bool
  cache : Bool
deriving DecidableEq

/-- `CrewAITask` (the fields `mapWorkflowToCrew` constructs). -/
structure CrewAITask where
  description : String
  expectedOutput : String
  agent : String
  tools : Option (List String)
  context : List String
  async : Bool
deriving DecidableEq

/-- `CrewAICrew` (the fields `mapWorkflowToCrew` constructs). -/
structure CrewAICrew where
  name : String
  agents : List CrewAIAgent
  tasks : List CrewAITask
  process : CrewAIProcess
  verbose : Bool
  memory : Bool
  cache : Bool
  maxRpm : ℚ
  shareCrewAI : Bool
deriving DecidableEq

/-- `mapCrewAIModel` (crewai.adapter.ts, lines 204-219). -/
def mapCrewAIModel (provider : AIProvider) (model : String) : String :=
  let providerMap : List (String × String) :=
    [("openai", "openai"), ("anthropic", "anthropic"), ("google", "google"),
     ("mistral", "mistral"), ("cohere", "cohere"), ("azure-openai", "azure"),
     ("bedrock", "bedrock"), ("custom", "custom")]
  let mapped := jsOrStr (mapGetD providerMap provider.str "") provider.str
  mapped ++ "/" ++ model

/-- `mapAgentToCrewAgent` (crewai.adapter.ts, lines 37-79). -/
def mapAgentToCrewAgent (agent : AgentConfig) (options : CrewAIAdapterOptions) :
    CrewAIAgent :=
  let verbose := options.verbose.getD false
  let enableMemory := options.enableMemory.getD true
  let enableCache := options.enableCache.getD true
  let role := jsOrStr agent.name agent.id
  let goal := jsOrStr (jsOrStr (agent.systemPrompt.getD "")
    (agent.description.getD "")) ("Execute tasks as " ++ role)
  let backstory :=
    if jsTruthy agent.description then
      (agent.description.getD "") ++ ". " ++ (agent.systemPrompt.getD "")
    else
      jsOrStr (agent.systemPrompt.getD "")
        ("An AI agent specialized in performing tasks related to " ++ role ++ ".")
  let tools := agent.tools.map (fun ts => ts.map (fun t => t.name))
  let llm : CrewLLM :=
    { model := mapCrewAIModel agent.provider agent.model
      temperature := (agent.parameters.bind (fun p => p.temperature)).getD (7/10)
      maxTokens := (agent.parameters.bind (fun p => p.maxTokens)).getD 1000
      topP := (agent.parameters.bind (fun p => p.topP)).getD 1 }
  let memNotNone :=
    match agent.memory with
    | Option.none => true
    | some m => decide (m.type ≠ MemoryType.none)
  { role := role, goal := goal, backstory := backstory, tools := tools
    llm := llm, verbose := verbose, allowDelegation := true, maxIter := 15
    memory := enableMemory && memNotNone, cache := enableCache }

/-- `determineProcessType` (crewai.adapter.ts, lines 178-199). -/
def determineProcessType (workflow : WorkflowConfig) : CrewAIProcess :=
  let hasBranching := workflow.connections.any (fun conn =>
    decide (1 < (workflow.connections.filter
      (fun c => c.sourceId == conn.sourceId)).length))
  let isLinear := workflow.nodes.all (fun node =>
    decide ((workflow.connections.filter
      (fun c => c.targetId == node.id)).length ≤ 1) &&
    decide ((workflow.connections.filter
      (fun c => c.sourceId == node.id)).length ≤ 1))
  if hasBranching || !isLinear then CrewAIProcess.hierarchical
  else CrewAIProcess.sequential

/-- The loop body of `mapWorkflowToCrew` (lines 129-160): an agent-kind node
with an inline agent config contributes one crew agent and one task; any other
node contributes nothing. -/
def crewStep (workflow : WorkflowConfig) (options : CrewAIAdapterOptions)
    (process : CrewAIProcess) (dependencyMap : List (String × List String))
    (acc : List CrewAIAgent × List CrewAITask) (p : Nat × WorkflowNode) :
    List CrewAIAgent × List CrewAITask :=
  let (index, node) := p
  if node.type = NodeType.agent then
    match node.agent with
    | some agentConfig =>
        let crewAgent := mapAgentToCrewAgent agentConfig options
        let dependencies := mapGetD dependencyMap node.id []
        let task : CrewAITask :=
          { description := jsOrStr (jsOrStr (agentConfig.systemPrompt.getD "")
              (agentConfig.description.getD ""))
              ("Execute task " ++ toString (index + 1))
            expectedOutput := "Results from " ++ crewAgent.role
            agent := crewAgent.role
            tools := agentConfig.tools.map (fun ts => ts.map (fun t => t.name))
            context := ((dependencies.map (fun depId =>
                match workflow.nodes.find? (fun n => n.id == depId) with
                | some depNode =>
                    if depNode.type = NodeType.agent then some depId
                    else Option.none
                | Option.none => Option.none)).reduceOption).filter
              (fun s => s != "")
            async := decide (process = CrewAIProcess.hierarchical) }
        (acc.1 ++ [crewAgent], acc.2 ++ [task])
    | Option.none => acc
  else acc

/-- `mapWorkflowToCrew` (crewai.adapter.ts, lines 105-173). -/
def mapWorkflowToCrew (workflow : WorkflowConfig)
    (options : CrewAIAdapterOptions) : CrewAICrew :=
  let process := options.process.getD (determineProcessType workflow)
  let verbose := options.verbose.getD false
  let enableMemory := options.enableMemory.getD true
  let enableCache := options.enableCache.getD true
  let maxRpm := options.maxRpm.getD 10
  let dependencyMap := workflow.connections.foldl (fun m c =>
    mapSet m c.targetId ((mapGetD m c.targetId []) ++ [c.sourceId])) []
  let pair := workflow.nodes.enum.foldl
    (crewStep workflow options process dependencyMap) ([], [])
  { name := jsOrStr workflow.name workflow.id
    agents := pair.1, tasks := pair.2, process := process, verbose := verbose
    memory := enableMemory, cache := enableCache, maxRpm := maxRpm
    shareCrewAI := false }

/-! ## LangChain adapter (src/adapters/langchain.adapter.ts) -/

/-- `LangChainAgentType`. -/
inductive LCAgentType where
  | zeroShotReactDescription
  | reactDocstore
  | selfAskWithSearch
  | conversationalReactDescription
  | chatZeroShotReactDescription
  | chatConversationalReactDescription
  | structuredChatZeroShotReactDescription
  | openaiFunctions
  | openaiMultiFunctions
deriving DecidableEq

/-- `LangChainMemory.type`. -/
inductive LCMemoryType where
  | buffer | bufferWindow | summary | entity | knowledgeGraph
deriving DecidableEq

/-- `LangChainMemory.config`. -/
structure LCMemoryConfig where
  k : Option ℤ := Option.none
  maxTokenLimit : Option ℤ := Option.none
  memoryKey : Option String := Option.none
  inputKey : Option String := Option.none
  outputKey : Option String := Option.none
  returnMessages : Option Bool := Option.none
deriving DecidableEq

/-- `LangChainMemory`. -/
structure LangChainMemory where
  type : LCMemoryType
  config : Option LCMemoryConfig := Option.none
deriving DecidableEq

/-- `LangChainTool` (the `func` callback carries no data and is omitted). -/
structure LangChainTool where
  name : String
  description : String
  parameters : Option (List (String × JsVal)) := Option.none
  returnDirect : Option Bool := Option.none
deriving DecidableEq

/-- The `llm` record built by `mapAgentToLangChain`. -/
structure LCLlm where
  modelName : String
  temperature : ℚ
  maxTokens : ℤ
  topP : ℚ
  frequencyPenalty : ℚ
  presencePenalty : ℚ
  timeout : ℤ
  maxRetries : ℤ
deriving DecidableEq

/-- `LangChainAgent` (the fields `mapAgentToLangChain` constructs). -/
structure LangChainAgent where
  agentType : LCAgentType
  llm : LCLlm
  tools : List LangChainTool
  memory : Option LangChainMemory
  systemMessage : Option String
  verbose : Bool
  maxIterations : ℤ
  returnIntermediateSteps : Bool
deriving DecidableEq

/-- `LangChainAdapterOptions`. -/
structure LangChainAdapterOptions where
  agentType : Option LCAgentType := Option.none
  verbose : Option Bool := Option.none
  maxIterations : Option ℤ := Option.none
  returnIntermediateSteps : Option Bool := Option.none
deriving DecidableEq

/-- `determineAgentType` (langchain.adapter.ts, lines 692-708). -/
def determineAgentType (agent : AgentConfig) : LCAgentType :=
  if (match agent.tools with
      | some ts => decide (0 < ts.length)
      | Option.none => false) then
    if agent.provider = AIProvider.openai then LCAgentType.openaiFunctions
    else LCAgentType.zeroShotReactDescription
  else if (match agent.memory with
      | some m => decide (m.type ≠ MemoryType.none)
      | Option.none => false) then
    LCAgentType.conversationalReactDescription
  else LCAgentType.zeroShotReactDescription

/-- `mapMemoryType` (langchain.adapter.ts, lines 713-722). -/
def mapMemoryType (memoryType : MemoryType) : LCMemoryType :=
  match memoryType with
  | MemoryType.buffer => LCMemoryType.buffer
  | MemoryType.summary => LCMemoryType.summary
  | MemoryType.vector => LCMemoryType.knowledgeGraph
  | MemoryType.none => LCMemoryType.buffer

/-- `mapModelName` (langchain.adapter.ts, lines 727-741). -/
def mapModelName (provider : AIProvider) (model : String) : String :=
  let providerTable : List (String × String) :=
    [("openai", "openai/"), ("anthropic", "anthropic/"),
     ("google", "google/"), ("mistral", "mistral/"), ("cohere", "cohere/"),
     ("azure-openai", "azure/"), ("bedrock", "bedrock/"), ("custom", "")]
  mapGetD providerTable provider.str "" ++ model

/-- `mapAgentToLangChain` (langchain.adapter.ts, lines 448-503). -/
def mapAgentToLangChain (agent : AgentConfig)
    (options : LangChainAdapterOptions) : LangChainAgent :=
  let agentType := options.agentType.getD (determineAgentType agent)
  let verbose := options.verbose.getD false
  let maxIterations := options.maxIterations.getD 15
  let returnIntermediateSteps := options.returnIntermediateSteps.getD false
  let toolStep : Tool → LangChainTool := fun t =>
    { name := t.name
      description := t.description
      parameters := t.parameters
      returnDirect := some false }
  let tools := (agent.tools.getD []).map toolStep
  let memStep : MemoryConfig → LangChainMemory := fun m =>
    let cfg : LCMemoryConfig :=
      { k := m.maxMessages
        memoryKey := some "chat_history"
        inputKey := some "input"
        outputKey := some "output"
        returnMessages := some true }
    { type := mapMemoryType m.type, config := some cfg }
  let memory := agent.memory.map memStep
  let llm : LCLlm :=
    { modelName := mapModelName agent.provider agent.model
      temperature := (agent.parameters.bind (fun p => p.temperature)).getD (7/10)
      maxTokens := (agent.parameters.bind (fun p => p.maxTokens)).getD 1000
      topP := (agent.parameters.bind (fun p => p.topP)).getD 1
      frequencyPenalty :=
        (agent.parameters.bind (fun p => p.frequencyPenalty)).getD 0
      presencePenalty :=
        (agent.parameters.bind (fun p => p.presencePenalty)).getD 0
      timeout := 60000, maxRetries := 2 }
  { agentType := agentType, llm := llm, tools := tools, memory := memory
    systemMessage := agent.systemPrompt, verbose := verbose
    maxIterations := maxIterations
    returnIntermediateSteps := returnIntermediateSteps }

/-- `LangGraphNode.type`. -/
inductive LgNodeType where
  | agent | tool | llm | prompt | conditional
deriving DecidableEq

/-- The `config` record of a LangGraph node, one shape per construction site of
`mapWorkflowToLangGraph`. -/
inductive LgConfig where
  | template (s : String)
  | agentInline (agentType : LCAgentType) (llm : LCLlm)
      (tools : List LangChainTool) (memory : Option LangChainMemory)
      (systemMessage : Option String)
  | agentRef (agentId : String)
  | cond (expr : String)
  | toolCfg (name description : String)
deriving DecidableEq

/-- The `next` field of a LangGraph node: single, parallel or conditional. -/
inductive LgNext where
  | single (target : String)
  | par (targets : List String)
  | condMap (m : List (String × String))
deriving DecidableEq

/-- `LangGraphNode`. -/
structure LangGraphNode where
  id : String
  type : LgNodeType
  config : LgConfig
  next : Option LgNext := Option.none
deriving DecidableEq

/-- One edge of a LangGraph workflow. -/
structure LgEdge where
  source : String
  target : String
  condition : Option String
deriving DecidableEq

/-- The `state` record of a LangGraph workflow.  `schema` values written by the
adapter are always strings (a variable's type name or `"string"`). -/
structure LgState where
  schema : List (String × String)
  default : List (String × JsVal)
deriving DecidableEq

/-- The checkpointer record (always `{ type: 'memory', config: {} }`). -/
structure LgCheckpointer where
  type : String
  config : List (String × JsVal)
deriving DecidableEq

/-- `LangGraphWorkflow` (nodes is a JS record in node-insertion order). -/
structure LangGraphWorkflow where
  name : String
  nodes : List (String × LangGraphNode)
  edges : List LgEdge
  entryPoint : String
  state : LgState
  checkpointer : LgCheckpointer
deriving DecidableEq

/-- The per-node-kind part of the `switch` in `mapWorkflowToLangGraph` (lines
545-622).  The TS `default` branch is unreachable: the node type enum is
closed. -/
def lgNodeBase (options : LangChainAdapterOptions) (node : WorkflowNode) :
    LangGraphNode :=
  match node.type with
  | NodeType.trigger =>
      { id := node.id, type := LgNodeType.prompt
        config := LgConfig.template "Start workflow with input: {input}" }
  | NodeType.agent =>
      match node.agent with
      | some agentConfig =>
          let lcAgent := mapAgentToLangChain agentConfig options
          { id := node.id, type := LgNodeType.agent
            config := LgConfig.agentInline lcAgent.agentType lcAgent.llm
              lcAgent.tools lcAgent.memory lcAgent.systemMessage }
      | Option.none =>
          { id := node.id, type := LgNodeType.agent
            config := LgConfig.agentRef (jsOrStr (node.agentId.getD "") node.id) }
  | NodeType.condition =>
      { id := node.id, type := LgNodeType.conditional
        config := LgConfig.cond "lambda x: x.get(\x22condition\x22, True)" }
  | NodeType.loop =>
      { id := node.id, type := LgNodeType.tool
        config := LgConfig.toolCfg "loop" "Iterate over items" }
  | NodeType.endNode =>
      { id := node.id, type := LgNodeType.llm
        config := LgConfig.template "Workflow completed. Output: {output}" }

/-- The `next` computation of `mapWorkflowToLangGraph` (lines 624-644). -/
def lgNext (workflow : WorkflowConfig) (node : WorkflowNode) : Option LgNext :=
  let outgoing := workflow.connections.filter (fun c => c.sourceId == node.id)
  match outgoing with
  | [] => Option.none
  | [c] => some (LgNext.single c.targetId)
  | cs =>
      if cs.any (fun c => jsTruthy c.condition) then
        some (LgNext.condMap (jsFromEntries (cs.map (fun c =>
          (jsOrStr (c.condition.getD "") "default", c.targetId)))))
      else some (LgNext.par (cs.map (fun c => c.targetId)))

/-- One LangGraph node with its `next` field. -/
def mkLgNode (workflow : WorkflowConfig) (options : LangChainAdapterOptions)
    (node : WorkflowNode) : LangGraphNode :=
  { lgNodeBase options node with next := lgNext workflow node }

/-- `mapWorkflowToLangGraph` (langchain.adapter.ts, lines 531-687). -/
def mapWorkflowToLangGraph (workflow : WorkflowConfig)
    (options : LangChainAdapterOptions) : LangGraphWorkflow :=
  let triggerNode := workflow.nodes.find? (fun n => n.type == NodeType.trigger)
  let entryPoint := jsOrStr (jsOrStr
    (match triggerNode with | some n => n.id | Option.none => "")
    (match workflow.nodes.head? with | some n => n.id | Option.none => ""))
    "start"
  let nodes := workflow.nodes.foldl (fun m node =>
    mapSet m node.id (mkLgNode workflow options node)) []
  let edgeStep : WorkflowConnection → LgEdge := fun c =>
    { source := c.sourceId, target := c.targetId, condition := c.condition }
  let edges := workflow.connections.map edgeStep
  let s0 : List (String × String) := (workflow.vars.getD []).foldl
    (fun m v => mapSet m v.name v.type.str) []
  let d0 : List (String × JsVal) := (workflow.vars.getD []).foldl
    (fun m v =>
      match v.defaultValue with
      | some dv => mapSet m v.name dv
      | Option.none => m) []
  let schema := mapSet (mapSet s0 "input" "string") "output" "string"
  let dflt := mapSet (mapSet d0 "input" (JsVal.str "")) "output" (JsVal.str "")
  { name := jsOrStr workflow.name workflow.id
    nodes := nodes, edges := edges, entryPoint := entryPoint
    state := { schema := schema, default := dflt }
    checkpointer := { type := "memory", config := [] } }


/-! ## n8n adapter (src/adapters/n8n.adapter.ts) -/

/-- `N8nWorkflow.settings`. -/
structure N8nSettings where
  executionOrder : Option String := Option.none
  saveExecutionProgress : Option Bool := Option.none
  saveManualExecutions : Option Bool := Option.none
deriving DecidableEq

/-- `N8nAdapterOptions`. -/
structure N8nAdapterOptions where
  startPosition : Option (ℚ × ℚ) := Option.none
  nodeSpacing : Option ℚ := Option.none
  includeCredentials : Option Bool := Option.none
  workflowSettings : Option N8nSettings := Option.none
deriving DecidableEq

/-- The model-parameter entries spread into an agent node's parameters when
`agent.parameters` is present (n8n.adapter.ts, lines 67-73). -/
structure AgentN8nModelParams where
  temperature : ℚ
  maxTokens : ℤ
  topP : ℚ
  frequencyPenalty : Option ℚ
  presencePenalty : Option ℚ
deriving DecidableEq

/-- One tool entry of an agent node's parameters (lines 78-82). -/
structure N8nToolParam where
  name : String
  description : String
  parameters : Option (List (String × JsVal))
deriving DecidableEq

/-- The memory entry of an agent node's parameters (lines 86-92). -/
structure N8nMemoryParam where
  type : MemoryType
  maxMessages : Option ℤ
  persistent : Option Bool
deriving DecidableEq

/-- The parameters record built by `mapAgentToN8nNode` (lines 53-98). -/
structure AgentN8nParams where
  agentId : String
  agentName : String
  description : String
  model : String
  provider : String
  systemPrompt : String
  params : Option AgentN8nModelParams
  tools : Option (List N8nToolParam)
  memory : Option N8nMemoryParam
  metadata : Option (List (String × JsVal))
deriving DecidableEq

/-- The `parameters` record of an n8n node, one shape per construction site in
the adapter (`Record<string, unknown>` in TS). -/
inductive N8nParams where
  | triggerP (path : Option String) (rule : Option String)
      (events : Option (List String))
  | agentFull (p : AgentN8nParams)
  | agentRef (agentId : String)
  | conditionP
  | loopP
  | emptyP
deriving DecidableEq

/-- The `parameters.agentId` read used when resolving connections: only the
two agent parameter shapes carry an `agentId` key. -/
def paramsAgentId : N8nParams → Option String
  | N8nParams.agentFull p => some p.agentId
  | N8nParams.agentRef a => some a
  | _ => Option.none

/-- A node's credentials record (at most one entry, built from the provider
credential table). -/
structure N8nCred where
  key : String
  id : String
  name : String
deriving DecidableEq

/-- `N8nNode`. -/
structure N8nNode where
  name : String
  type : String
  typeVersion : ℤ
  position : ℚ × ℚ
  parameters : N8nParams
  credentials : Option N8nCred := Option.none
deriving DecidableEq

/-- One entry of a connection group (`N8nConnection` in TS). -/
structure N8nConnEntry where
  node : String
  type : String
  index : ℤ
deriving DecidableEq

/-- `N8nWorkflow` (the fields `mapWorkflowToN8n` constructs).  The connections
record maps a source node name to its `main` output array (a `{ main: ... }`
wrapper object in TS).  `tags` is the cast opaque `metadata.tags` entry. -/
structure N8nWorkflow where
  name : String
  nodes : List N8nNode
  connections : List (String × List (List N8nConnEntry))
  settings : N8nSettings
  active : Bool
  tags : Option JsVal
deriving DecidableEq

/-- The provider-to-credential-type table of `mapAgentToN8nNode` (lines
42-50): no entry for `custom`. -/
def credentialMap : List (String × String) :=
  [("openai", "openAiApi"), ("anthropic", "anthropicApi"),
   ("google", "googlePalmApi"), ("mistral", "mistralApi"),
   ("cohere", "cohereApi"), ("azure-openai", "azureOpenAiApi"),
   ("bedrock", "awsApi")]

/-- `mapAgentToN8nNode` (n8n.adapter.ts, lines 35-119). -/
def mapAgentToN8nNode (agent : AgentConfig) (options : N8nAdapterOptions) :
    N8nNode :=
  let startPosition := options.startPosition.getD (250, 300)
  let includeCredentials := options.includeCredentials.getD true
  let params : AgentN8nParams :=
    { agentId := agent.id
      agentName := agent.name
      description := agent.description.getD ""
      model := agent.model
      provider := agent.provider.str
      systemPrompt := agent.systemPrompt.getD ""
      params := agent.parameters.map (fun p =>
        { temperature := p.temperature.getD (7/10)
          maxTokens := p.maxTokens.getD 1000
          topP := p.topP.getD 1
          frequencyPenalty := p.frequencyPenalty
          presencePenalty := p.presencePenalty })
      tools :=
        match agent.tools with
        | some ts =>
            if 0 < ts.length then
              some (ts.map (fun t =>
                { name := t.name, description := t.description
                  parameters := t.parameters }))
            else Option.none
        | Option.none => Option.none
      memory := agent.memory.map (fun m =>
        { type := m.type, maxMessages := m.maxMessages
          persistent := m.persistent })
      metadata := agent.metadata }
  let credentials : Option N8nCred :=
    if includeCredentials then
      (mapGet? credentialMap agent.provider.str).map (fun credType =>
        { key := credType, id := "1", name := agent.provider.str ++ " Account" })
    else Option.none
  { name := jsOrStr agent.name agent.id
    type := "n8n-nodes-langchain.agent"
    typeVersion := 1
    position := startPosition
    parameters := N8nParams.agentFull params
    credentials := credentials }

/-- `mapTriggerToN8nType` (n8n.adapter.ts, lines 327-337). -/
def mapTriggerToN8nType (triggerType : String) : String :=
  let triggerMap : List (String × String) :=
    [("webhook", "n8n-nodes-base.webhook"),
     ("schedule", "n8n-nodes-base.scheduleTrigger"),
     ("scheduled", "n8n-nodes-base.scheduleTrigger"),
     ("event", "n8n-nodes-base.eventTrigger"),
     ("manual", "n8n-nodes-base.manualTrigger")]
  jsOrStr (mapGetD triggerMap triggerType "") "n8n-nodes-base.manualTrigger"

/-- The BFS of `calculateNodePositions` (lines 377-394): pop a queue entry,
skip it if visited, otherwise record it in its level bucket and enqueue its
unvisited neighbours one level further.  Fuel dominates the total number of
queue insertions. -/
def bfsLevelsLoop (graph : List (String × List String)) :
    Nat → List (String × Nat) → List (Nat × List String) → List String →
    List (Nat × List String)
  | _, [], levels, _ => levels
  | 0, _ :: _, levels, _ => levels
  | fuel + 1, (id, level) :: queue, levels, visited =>
      if visited.contains id then bfsLevelsLoop graph fuel queue levels visited
      else
        let visited' := id :: visited
        let levels' := mapSet levels level (mapGetD levels level [] ++ [id])
        let nbrs := mapGetD graph id []
        let queue' := queue ++
          (nbrs.filter (fun n => !visited'.contains n)).map
            (fun n => (n, level + 1))
        bfsLevelsLoop graph fuel queue' levels' visited'

/-- The position-assignment loop of `calculateNodePositions` (lines 396-407):
walk levels 0, 1, 2, ... while present. -/
def assignLevelsLoop (startPosition : ℚ × ℚ) (spacing : ℚ)
    (levels : List (Nat × List String)) :
    Nat → Nat → List (String × (ℚ × ℚ)) → List (String × (ℚ × ℚ))
  | 0, _, positions => positions
  | fuel + 1, currentLevel, positions =>
      if hasKey levels currentLevel then
        let nodesInLevel := mapGetD levels currentLevel []
        let positions' := nodesInLevel.enum.foldl (fun ps p =>
          mapSet ps p.2
            (startPosition.1 + (currentLevel : ℚ) * spacing,
             startPosition.2 + (p.1 : ℚ) * 100)) positions
        assignLevelsLoop startPosition spacing levels fuel (currentLevel + 1)
          positions'
      else positions

/-- `calculateNodePositions` (n8n.adapter.ts, lines 343-410). -/
def calculateNodePositions (ids : List String)
    (conns : List (String × String)) (startPosition : ℚ × ℚ) (spacing : ℚ) :
    List (String × (ℚ × ℚ)) :=
  let graph0 : List (String × List String) :=
    ids.foldl (fun m i => mapSet m i []) []
  let graph := conns.foldl (fun m c =>
    if hasKey m c.1 then mapSet m c.1 (mapGetD m c.1 [] ++ [c.2]) else m)
    graph0
  let inDeg0 : List (String × ℤ) := ids.foldl (fun m i => mapSet m i 0) []
  let inDeg := conns.foldl (fun m c =>
    mapSet m c.2 (mapGetD m c.2 0 + 1)) inDeg0
  let queue0 := (ids.filter (fun i => mapGetD inDeg i 0 == 0)).map
    (fun i => (i, 0))
  let levels := bfsLevelsLoop graph (ids.length + conns.length + 1) queue0 [] []
  assignLevelsLoop startPosition spacing levels (levels.length + 1) 0 []

/-- The per-node `switch` of `mapWorkflowToN8n` (lines 175-271).  The TS
`default` branch is unreachable: the node type enum is closed. -/
def mkN8nNode (workflow : WorkflowConfig) (position : ℚ × ℚ)
    (node : WorkflowNode) : N8nNode :=
  match node.type with
  | NodeType.trigger =>
      { name := "Trigger " ++ node.id
        type :=
          match workflow.trigger with
          | some t => mapTriggerToN8nType t.type.str
          | Option.none => "n8n-nodes-base.manualTrigger"
        typeVersion := 1
        position := position
        parameters := N8nParams.triggerP
          (match (workflow.trigger.bind (fun t => t.config)).bind
              (fun c => c.webhookUrl) with
           | some s => if s = "" then Option.none else some s
           | Option.none => Option.none)
          (match (workflow.trigger.bind (fun t => t.config)).bind
              (fun c => c.schedule) with
           | some s => if s = "" then Option.none else some s
           | Option.none => Option.none)
          (match (workflow.trigger.bind (fun t => t.config)).bind
              (fun c => c.eventName) with
           | some s => if s = "" then Option.none else some [s]
           | Option.none => Option.none) }
  | NodeType.agent =>
      match node.agent with
      | some agentConfig =>
          mapAgentToN8nNode agentConfig { startPosition := some position }
      | Option.none =>
          { name := "Agent " ++ node.id
            type := "n8n-nodes-langchain.agent"
            typeVersion := 1
            position := position
            parameters := N8nParams.agentRef
              (jsOrStr (node.agentId.getD "") node.id) }
  | NodeType.condition =>
      { name := "Condition " ++ node.id, type := "n8n-nodes-base.if"
        typeVersion := 1, position := position
        parameters := N8nParams.conditionP }
  | NodeType.loop =>
      { name := "Loop " ++ node.id, type := "n8n-nodes-base.splitInBatches"
        typeVersion := 1, position := position, parameters := N8nParams.loopP }
  | NodeType.endNode =>
      { name := "End " ++ node.id, type := "n8n-nodes-base.noOp"
        typeVersion := 1, position := position, parameters := N8nParams.emptyP }

/-- The generated n8n node list of `mapWorkflowToN8n` (lines 155-274). -/
def n8nNodes (workflow : WorkflowConfig) (options : N8nAdapterOptions) :
    List N8nNode :=
  let startPosition := options.startPosition.getD (250, 300)
  let nodeSpacing := options.nodeSpacing.getD 220
  let nodePositions := calculateNodePositions
    (workflow.nodes.map (fun n => n.id))
    (workflow.connections.map (fun c => (c.sourceId, c.targetId)))
    startPosition nodeSpacing
  workflow.nodes.enum.map (fun p =>
    let position := mapGetD nodePositions p.2.id
      (startPosition.1 + (p.1 : ℚ) * nodeSpacing, startPosition.2)
    mkN8nNode workflow position p.2)

/-- The node resolution used when building connections (lines 278-285): by
name containment or by the `agentId` parameter. -/
def findN8nNode (nodes : List N8nNode) (key : String) : Option N8nNode :=
  nodes.find? (fun n =>
    strIncludes n.name key ||
    (match paramsAgentId n.parameters with
     | some a => a == key
     | Option.none => false))

/-- One step of the connection-building fold (lines 277-308): skip the
connection silently if either endpoint resolves to no generated node. -/
def connStep (nodes : List N8nNode)
    (acc : List (String × List (List N8nConnEntry)))
    (conn : WorkflowConnection) : List (String × List (List N8nConnEntry)) :=
  match findN8nNode nodes conn.sourceId, findN8nNode nodes conn.targetId with
  | some fromNode, some toNode =>
      let fromName := fromNode.name
      -- `const outputIndex = conn.condition ? 0 : 0` in the source
      let outputIndex : Nat := 0
      let acc1 := if hasKey acc fromName then acc else mapSet acc fromName [[]]
      let main0 := mapGetD acc1 fromName [[]]
      let main1 := main0 ++ List.replicate (outputIndex + 1 - main0.length) []
      let entry : N8nConnEntry := { node := toNode.name, type := "main", index := 0 }
      mapSet acc1 fromName
        (main1.set outputIndex (main1.getD outputIndex [] ++ [entry]))
  | _, _ => acc

/-- The connections record of `mapWorkflowToN8n`. -/
def buildN8nConnections (nodes : List N8nNode)
    (conns : List WorkflowConnection) :
    List (String × List (List N8nConnEntry)) :=
  conns.foldl (connStep nodes) []

/-- `mapWorkflowToN8n` (n8n.adapter.ts, lines 145-322). -/
def mapWorkflowToN8n (workflow : WorkflowConfig) (options : N8nAdapterOptions) :
    N8nWorkflow :=
  let nodes := n8nNodes workflow options
  let connections := buildN8nConnections nodes workflow.connections
  { name := jsOrStr workflow.name workflow.id
    nodes := nodes
    connections := connections
    settings := options.workflowSettings.getD
      { executionOrder := some "v1", saveExecutionProgress := some true
        saveManualExecutions := some true }
    active := false
    tags := workflow.metadata.bind (fun m => mapGet? m "tags") }


/-! ## Association-list lemmas -/

theorem mapGet?_cons_pos {κ α : Type} [BEq κ] (p : κ × α) (m : List (κ × α))
    (k : κ) (h : (p.1 == k) = true) : mapGet? (p :: m) k = some p.2 := by
  unfold mapGet?
  have hf : List.find? (fun q => q.1 == k) (p :: m) = some p :=
    List.find?_cons_of_pos m h
  rw [hf]
  rfl

theorem mapGet?_cons_neg {κ α : Type} [BEq κ] (p : κ × α) (m : List (κ × α))
    (k : κ) (h : (p.1 == k) = false) : mapGet? (p :: m) k = mapGet? m k := by
  unfold mapGet?
  have hf : List.find? (fun q => q.1 == k) (p :: m) =
      List.find? (fun q => q.1 == k) m :=
    List.find?_cons_of_neg m (by simp [h])
  rw [hf]

theorem hasKey_cons_false {κ α : Type} [BEq κ] (p : κ × α) (m : List (κ × α))
    (k : κ) (h : hasKey (p :: m) k = false) :
    (p.1 == k) = false ∧ hasKey m k = false := by
  simpa [hasKey] using h

theorem mapSet_of_hasKey {κ α : Type} [BEq κ] (m : List (κ × α)) (k : κ)
    (v : α) (h : hasKey m k = true) :
    mapSet m k v = m.map (fun p => if p.1 == k then (k, v) else p) := by
  unfold mapSet
  rw [if_pos h]

theorem mapSet_of_not_hasKey {κ α : Type} [BEq κ] (m : List (κ × α)) (k : κ)
    (v : α) (h : hasKey m k = false) : mapSet m k v = m ++ [(k, v)] := by
  unfold mapSet
  rw [if_neg (by simp [h])]

theorem mapGet?_overwrite {α : Type} (m : List (String × α)) (k : String)
    (v : α) (h : hasKey m k = true) :
    mapGet? (m.map (fun p => if p.1 == k then (k, v) else p)) k = some v := by
  induction m with
  | nil => simp [hasKey] at h
  | cons p t ih =>
      cases hp : (p.1 == k) with
      | true =>
          simp only [List.map_cons, if_pos hp]
          exact mapGet?_cons_pos (k, v) _ k (by simp)
      | false =>
          simp only [List.map_cons, if_neg (by simp [hp] : ¬ (p.1 == k) = true)]
          rw [mapGet?_cons_neg p _ k hp]
          apply ih
          simpa [hasKey, hp] using h

theorem mapGet?_overwrite_ne {α : Type} (m : List (String × α)) (k k' : String)
    (v : α) (h : k' ≠ k) :
    mapGet? (m.map (fun p => if p.1 == k then (k, v) else p)) k' =
      mapGet? m k' := by
  induction m with
  | nil => simp [mapGet?]
  | cons p t ih =>
      cases hp : (p.1 == k) with
      | true =>
          have hpk : p.1 = k := by simpa using hp
          simp only [List.map_cons, if_pos hp]
          rw [mapGet?_cons_neg (k, v) _ k' (by simp [Ne.symm h]),
            mapGet?_cons_neg p t k' (by simp [hpk, Ne.symm h]), ih]
      | false =>
          simp only [List.map_cons, if_neg (by simp [hp] : ¬ (p.1 == k) = true)]
          cases hq : (p.1 == k') with
          | true =>
              rw [mapGet?_cons_pos p _ k' hq, mapGet?_cons_pos p t k' hq]
          | false =>
              rw [mapGet?_cons_neg p _ k' hq, mapGet?_cons_neg p t k' hq, ih]

theorem mapGet?_append_single {α : Type} (m : List (String × α))
    (k k' : String) (v : α) :
    mapGet? (m ++ [(k, v)]) k' =
      if k == k' then some ((mapGet? m k').getD v) else mapGet? m k' := by
  induction m with
  | nil =>
      cases hk : (k == k') with
      | true =>
          rw [List.nil_append, mapGet?_cons_pos (k, v) [] k' hk]
          simp [mapGet?]
      | false =>
          rw [List.nil_append, mapGet?_cons_neg (k, v) [] k' hk]
          simp
  | cons p t ih =>
      cases hq : (p.1 == k') with
      | true =>
          rw [List.cons_append, mapGet?_cons_pos p _ k' hq,
            mapGet?_cons_pos p t k' hq]
          cases hk : (k == k') <;> simp
      | false =>
          rw [List.cons_append, mapGet?_cons_neg p _ k' hq,
            mapGet?_cons_neg p t k' hq, ih]

theorem mapGet?_none_of_not_hasKey {α : Type} (m : List (String × α))
    (k : String) (h : hasKey m k = false) : mapGet? m k = Option.none := by
  have hf : List.find? (fun q => q.1 == k) m = Option.none := by
    rw [List.find?_eq_none]
    intro p hp
    simp only [hasKey, List.any_eq_false] at h
    simpa using h p hp
  simp [mapGet?, hf]

theorem mapGet?_mapSet_self {α : Type} (m : List (String × α)) (k : String)
    (v : α) : mapGet? (mapSet m k v) k = some v := by
  cases h : hasKey m k with
  | true => rw [mapSet_of_hasKey m k v h]; exact mapGet?_overwrite m k v h
  | false =>
      rw [mapSet_of_not_hasKey m k v h, mapGet?_append_single,
        mapGet?_none_of_not_hasKey m k h]
      simp

theorem mapGet?_mapSet_ne {α : Type} (m : List (String × α)) (k k' : String)
    (v : α) (h : k' ≠ k) : mapGet? (mapSet m k v) k' = mapGet? m k' := by
  cases hk : hasKey m k with
  | true => rw [mapSet_of_hasKey m k v hk]; exact mapGet?_overwrite_ne m k k' v h
  | false =>
      rw [mapSet_of_not_hasKey m k v hk, mapGet?_append_single,
        if_neg (by simp [Ne.symm h] : ¬ (k == k') = true)]


/-! ## Example workflows used in counterexamples and witnesses -/

/-- A structurally valid workflow whose connection graph is the two-node cycle
n1 -> n2 -> n1. -/
def cyclicWorkflow : WorkflowConfig :=
  { id := "wf-cyclic", name := "Cyclic Workflow"
    nodes := [{ id := "n1", type := NodeType.agent, agentId := some "a1" },
              { id := "n2", type := NodeType.agent, agentId := some "a2" }]
    connections := [{ id := "c1", sourceId := "n1", targetId := "n2" },
                    { id := "c2", sourceId := "n2", targetId := "n1" }] }

/-- A workflow with two nodes sharing the id "n1". -/
def dupIdWorkflow : WorkflowConfig :=
  { id := "wf-dup", name := "Duplicate Ids"
    nodes := [{ id := "n1", type := NodeType.endNode },
              { id := "n1", type := NodeType.endNode }]
    connections := [] }

/-- A minimal valid single-node workflow. -/
def simpleWorkflow : WorkflowConfig :=
  { id := "wf-1", name := "Simple"
    nodes := [{ id := "n1", type := NodeType.endNode }]
    connections := [] }

/-! ## Claim C1 -/

/-- The 2-cycle of `cyclicWorkflow`, as an explicit transitive chain. -/
theorem cyclicWorkflow_hasCycle : HasCycleW cyclicWorkflow := by
  have e1 : EdgeW cyclicWorkflow "n1" "n2" := by decide
  have e2 : EdgeW cyclicWorkflow "n2" "n1" := by decide
  exact ⟨"n1", Relation.TransGen.head e1 (Relation.TransGen.single e2)⟩

/-- C1 counterexample: this workflow passes structural validation, its
connection graph contains a directed cycle, yet `validateWorkflowConfig`
returns a success verdict — not the failure the claim asserts. -/
theorem claim_C1_counterexample :
    HasCycleW cyclicWorkflow ∧
      validateWorkflowConfig cyclicWorkflow =
        WVResult.success cyclicWorkflow := by
  exact ⟨cyclicWorkflow_hasCycle, by decide⟩

/-- C1 (amended): `validateWorkflowConfig` applies only the structural schema
checks; a workflow whose connection graph contains a directed cycle is still
accepted (success verdict) whenever those structural checks pass.  Cycle
analysis lives in the separate `detectWorkflowCycles` utility and plays no
part in the validator's verdict. -/
theorem claim_C1_amended (w : WorkflowConfig)
    (hok : workflowSchemaOk w = true) (_hcyc : HasCycleW w) :
    validateWorkflowConfig w = WVResult.success w := by
  unfold validateWorkflowConfig
  rw [if_pos hok]

/-- Witness for `claim_C1_amended` at the concrete cyclic workflow. -/
theorem claim_C1_amended_witness :
    validateWorkflowConfig cyclicWorkflow = WVResult.success cyclicWorkflow :=
  claim_C1_amended cyclicWorkflow (by decide) cyclicWorkflow_hasCycle

/-! ## Claim C7 -/

/-- C7 counterexample: a workflow with two nodes of the same id is accepted by
`validateWorkflowConfig`, so the node ids of accepted data are not always
pairwise distinct. -/
theorem claim_C7_counterexample :
    validateWorkflowConfig dupIdWorkflow = WVResult.success dupIdWorkflow ∧
      ¬ (nodeIds dupIdWorkflow).Nodup := by
  exact ⟨by decide, by decide⟩

/-- C7 (amended): a success verdict guarantees the schema's actual invariants
— a non-empty node list, resolvable connection endpoints, and an agent
reference on every agent node — but not uniqueness of node ids. -/
theorem claim_C7_amended (c d : WorkflowConfig)
    (h : validateWorkflowConfig c = WVResult.success d) :
    d.nodes ≠ [] ∧
      (∀ conn ∈ d.connections,
        conn.sourceId ∈ nodeIds d ∧ conn.targetId ∈ nodeIds d) ∧
      (∀ n ∈ d.nodes, n.type = NodeType.agent →
        jsTruthy n.agentId = true ∨ n.agent.isSome = true) := by
  unfold validateWorkflowConfig at h
  cases hok : workflowSchemaOk c with
  | false => rw [if_neg (by simp [hok])] at h; simp at h
  | true =>
      rw [if_pos hok] at h
      have hcd : c = d := by injection h
      subst hcd
      unfold workflowSchemaOk at hok
      simp only [Bool.and_eq_true] at hok
      obtain ⟨⟨hbase, hconn⟩, hagent⟩ := hok
      refine ⟨?_, ?_, ?_⟩
      · intro hnil
        unfold baseSchemaOk at hbase
        rw [hnil] at hbase
        simp at hbase
      · intro conn hmem
        unfold connectionsResolve at hconn
        rw [List.all_eq_true] at hconn
        have hc := hconn conn hmem
        simp only [Bool.and_eq_true] at hc
        constructor
        · simpa [List.contains] using hc.1
        · simpa [List.contains] using hc.2
      · intro n hn htype
        unfold agentNodesHaveRef at hagent
        rw [List.all_eq_true] at hagent
        have hmem : n ∈ c.nodes.filter (fun m => m.type == NodeType.agent) := by
          rw [List.mem_filter]
          exact ⟨hn, by simp [htype]⟩
        have := hagent n hmem
        simpa [Bool.or_eq_true] using this

/-- Witness for `claim_C7_amended` at a concrete accepted workflow. -/
theorem claim_C7_amended_witness :
    simpleWorkflow.nodes ≠ [] ∧
      (∀ conn ∈ simpleWorkflow.connections,
        conn.sourceId ∈ nodeIds simpleWorkflow ∧
          conn.targetId ∈ nodeIds simpleWorkflow) ∧
      (∀ n ∈ simpleWorkflow.nodes, n.type = NodeType.agent →
        jsTruthy n.agentId = true ∨ n.agent.isSome = true) :=
  claim_C7_amended simpleWorkflow simpleWorkflow (by decide)

/-! ## Claim C9 -/

/-- C9: re-validating the `data` of a successful validation succeeds and
returns the same parsed workflow value. -/
theorem claim_C9 (c d : WorkflowConfig)
    (h : validateWorkflowConfig c = WVResult.success d) :
    validateWorkflowConfig d = WVResult.success d := by
  unfold validateWorkflowConfig at h ⊢
  cases hok : workflowSchemaOk c with
  | false => rw [if_neg (by simp [hok])] at h; simp at h
  | true =>
      rw [if_pos hok] at h
      have hcd : c = d := by injection h
      subst hcd
      rw [if_pos hok]

/-- Witness for `claim_C9` at a concrete workflow. -/
theorem claim_C9_witness :
    validateWorkflowConfig simpleWorkflow = WVResult.success simpleWorkflow :=
  claim_C9 simpleWorkflow simpleWorkflow (by decide)


/-! ## Claim C6 -/

/-- A valid workflow whose single agent node carries only a bare `agentId`. -/
def bareAgentWorkflow : WorkflowConfig :=
  { id := "wf-bare", name := "Bare Agent"
    nodes := [{ id := "a1", type := NodeType.agent, agentId := some "ext-agent" }]
    connections := [] }

/-- C6 counterexample: a valid workflow with one agent-kind node carrying only
a bare `agentId` produces a crew with zero agents and zero tasks — the node is
skipped entirely, so the number of crew agents does not equal the number of
agent-kind nodes. -/
theorem claim_C6_counterexample :
    validateWorkflowConfig bareAgentWorkflow =
        WVResult.success bareAgentWorkflow ∧
      (bareAgentWorkflow.nodes.filter
        (fun n => n.type == NodeType.agent)).length = 1 ∧
      (mapWorkflowToCrew bareAgentWorkflow {}).agents.length = 0 ∧
      (mapWorkflowToCrew bareAgentWorkflow {}).tasks.length = 0 := by
  decide

/-- Each crew fold step adds one agent and one task exactly for an agent-kind
node with an inline agent config, and nothing otherwise. -/
theorem crewStep_lengths (w : WorkflowConfig) (o : CrewAIAdapterOptions)
    (pr : CrewAIProcess) (dm : List (String × List String))
    (acc : List CrewAIAgent × List CrewAITask) (p : Nat × WorkflowNode) :
    (crewStep w o pr dm acc p).1.length =
        acc.1.length +
          (if (p.2.type == NodeType.agent && p.2.agent.isSome) = true then 1
           else 0) ∧
      (crewStep w o pr dm acc p).2.length =
        acc.2.length +
          (if (p.2.type == NodeType.agent && p.2.agent.isSome) = true then 1
           else 0) := by
  obtain ⟨idx, node⟩ := p
  unfold crewStep
  by_cases h1 : node.type = NodeType.agent
  · cases h2 : node.agent with
    | some a => simp [h1, h2]
    | none => simp [h1, h2]
  · simp [h1]

/-- Crew fold counting: the totals count agent-kind nodes with inline agent
configs. -/
theorem crew_foldl_lengths (w : WorkflowConfig) (o : CrewAIAdapterOptions)
    (pr : CrewAIProcess) (dm : List (String × List String))
    (l : List (Nat × WorkflowNode)) :
    ∀ acc : List CrewAIAgent × List CrewAITask,
      (l.foldl (crewStep w o pr dm) acc).1.length =
          acc.1.length + (l.filter
            (fun p => p.2.type == NodeType.agent && p.2.agent.isSome)).length ∧
        (l.foldl (crewStep w o pr dm) acc).2.length =
          acc.2.length + (l.filter
            (fun p => p.2.type == NodeType.agent && p.2.agent.isSome)).length := by
  induction l with
  | nil => intro acc; simp
  | cons p t ih =>
      intro acc
      rw [List.foldl_cons, List.filter_cons]
      obtain ⟨hf, hs⟩ := ih (crewStep w o pr dm acc p)
      obtain ⟨cf, cs⟩ := crewStep_lengths w o pr dm acc p
      cases hc : (p.2.type == NodeType.agent && p.2.agent.isSome) with
      | true =>
          constructor
          · rw [hf, cf]; simp [hc]; omega
          · rw [hs, cs]; simp [hc]; omega
      | false =>
          constructor
          · rw [hf, cf]; simp [hc]
          · rw [hs, cs]; simp [hc]

/-- Filtering an enumerated list on the payload counts like filtering the
list itself. -/
theorem enumFrom_filter_snd_length {α : Type} (P : α → Bool) (l : List α) :
    ∀ n, ((List.enumFrom n l).filter (fun p => P p.2)).length =
      (l.filter P).length := by
  induction l with
  | nil => intro n; simp
  | cons a t ih =>
      intro n
      rw [List.enumFrom_cons, List.filter_cons, List.filter_cons]
      cases hp : P a with
      | true => simp [hp, ih]
      | false => simp [hp, ih]

/-- C6 (amended): `mapWorkflowToCrew` emits one crew agent and one paired task
per agent-kind node carrying an inline agent config; agent-kind nodes with
only a bare `agentId` reference (and all non-agent nodes) are skipped, so the
number of crew agents (and of tasks) equals the number of agent-kind nodes
with inline configs. -/
theorem claim_C6_amended (w : WorkflowConfig) (opts : CrewAIAdapterOptions) :
    (mapWorkflowToCrew w opts).agents.length =
        (w.nodes.filter
          (fun n => n.type == NodeType.agent && n.agent.isSome)).length ∧
      (mapWorkflowToCrew w opts).tasks.length =
        (w.nodes.filter
          (fun n => n.type == NodeType.agent && n.agent.isSome)).length := by
  have hfold := crew_foldl_lengths w opts
    (opts.process.getD (determineProcessType w))
    (w.connections.foldl (fun m c =>
      mapSet m c.targetId ((mapGetD m c.targetId []) ++ [c.sourceId])) [])
    w.nodes.enum ([], [])
  have henum := enumFrom_filter_snd_length
    (fun n => n.type == NodeType.agent && n.agent.isSome) w.nodes 0
  constructor
  · show (mapWorkflowToCrew w opts).agents.length = _
    have : (mapWorkflowToCrew w opts).agents =
        (w.nodes.enum.foldl (crewStep w opts
          (opts.process.getD (determineProcessType w))
          (w.connections.foldl (fun m c =>
            mapSet m c.targetId ((mapGetD m c.targetId []) ++ [c.sourceId])) []))
          ([], [])).1 := rfl
    rw [this, hfold.1, List.enum]
    rw [henum]
    simp
  · have : (mapWorkflowToCrew w opts).tasks =
        (w.nodes.enum.foldl (crewStep w opts
          (opts.process.getD (determineProcessType w))
          (w.connections.foldl (fun m c =>
            mapSet m c.targetId ((mapGetD m c.targetId []) ++ [c.sourceId])) []))
          ([], [])).2 := rfl
    rw [this, hfold.2, List.enum]
    rw [henum]
    simp

/-! ## Claim C10 -/

/-- C10: the implicit `input`/`output` state fields are written after the
declared variables, so even when a workflow declares a variable named "input"
or "output", the final state schema maps both names to "string" and the final
defaults map both to the empty string. -/
theorem claim_C10 (w : WorkflowConfig) (opts : LangChainAdapterOptions)
    (_h : ∃ v ∈ w.vars.getD [], v.name = "input" ∨ v.name = "output") :
    mapGet? (mapWorkflowToLangGraph w opts).state.schema "input" =
        some "string" ∧
      mapGet? (mapWorkflowToLangGraph w opts).state.schema "output" =
        some "string" ∧
      mapGet? (mapWorkflowToLangGraph w opts).state.default "input" =
        some (JsVal.str "") ∧
      mapGet? (mapWorkflowToLangGraph w opts).state.default "output" =
        some (JsVal.str "") := by
  have hschema : (mapWorkflowToLangGraph w opts).state.schema =
      mapSet (mapSet ((w.vars.getD []).foldl
        (fun m v => mapSet m v.name v.type.str) []) "input" "string")
        "output" "string" := rfl
  have hdefault : (mapWorkflowToLangGraph w opts).state.default =
      mapSet (mapSet ((w.vars.getD []).foldl
        (fun m v =>
          match v.defaultValue with
          | some dv => mapSet m v.name dv
          | Option.none => m) []) "input" (JsVal.str "")) "output"
        (JsVal.str "") := rfl
  refine ⟨?_, ?_, ?_, ?_⟩
  · rw [hschema, mapGet?_mapSet_ne _ _ _ _ (by decide), mapGet?_mapSet_self]
  · rw [hschema, mapGet?_mapSet_self]
  · rw [hdefault, mapGet?_mapSet_ne _ _ _ _ (by decide), mapGet?_mapSet_self]
  · rw [hdefault, mapGet?_mapSet_self]

/-- A valid workflow that declares its own "input" variable (numeric, with a
numeric default). -/
def inputVarWorkflow : WorkflowConfig :=
  { id := "wf-vars", name := "Declared Input"
    nodes := [{ id := "n1", type := NodeType.endNode }]
    connections := []
    vars := some [{ name := "input", type := VarType.number,
                    defaultValue := some (JsVal.num 5) }] }

/-- Witness for `claim_C10` at a workflow that declares "input" itself. -/
theorem claim_C10_witness :
    mapGet? (mapWorkflowToLangGraph inputVarWorkflow {}).state.schema "input" =
        some "string" ∧
      mapGet? (mapWorkflowToLangGraph inputVarWorkflow {}).state.schema
        "output" = some "string" ∧
      mapGet? (mapWorkflowToLangGraph inputVarWorkflow {}).state.default
        "input" = some (JsVal.str "") ∧
      mapGet? (mapWorkflowToLangGraph inputVarWorkflow {}).state.default
        "output" = some (JsVal.str "") :=
  claim_C10 inputVarWorkflow {} (by decide)


/-! ## Claim C5 -/

/-- With resolvable connection sources, `determineProcessType` answers
sequential exactly on strict chains (every node with in- and out-degree at
most one). -/
theorem determineProcessType_sequential_iff (w : WorkflowConfig)
    (hres : ∀ c ∈ w.connections, c.sourceId ∈ nodeIds w) :
    (determineProcessType w = CrewAIProcess.sequential ↔
      ∀ n ∈ w.nodes,
        (w.connections.filter (fun c => c.targetId == n.id)).length ≤ 1 ∧
          (w.connections.filter (fun c => c.sourceId == n.id)).length ≤ 1) := by
  unfold determineProcessType
  by_cases hcond :
      (w.connections.any (fun conn =>
        decide (1 < (w.connections.filter
          (fun c => c.sourceId == conn.sourceId)).length)) ||
      !w.nodes.all (fun node =>
        decide ((w.connections.filter
          (fun c => c.targetId == node.id)).length ≤ 1) &&
        decide ((w.connections.filter
          (fun c => c.sourceId == node.id)).length ≤ 1))) = true
  · rw [if_pos hcond]
    constructor
    · intro hseq
      exact absurd hseq (by decide)
    · intro hlin
      have hlinB : w.nodes.all (fun node =>
          decide ((w.connections.filter
            (fun c => c.targetId == node.id)).length ≤ 1) &&
          decide ((w.connections.filter
            (fun c => c.sourceId == node.id)).length ≤ 1)) = true := by
        rw [List.all_eq_true]
        intro n hn
        simp [(hlin n hn).1, (hlin n hn).2]
      have hbrB : w.connections.any (fun conn =>
          decide (1 < (w.connections.filter
            (fun c => c.sourceId == conn.sourceId)).length)) = false := by
        rw [List.any_eq_false]
        intro conn hconn
        have hsrc := hres conn hconn
        unfold nodeIds at hsrc
        rw [List.mem_map] at hsrc
        obtain ⟨n, hn, hnid⟩ := hsrc
        have hout := (hlin n hn).2
        rw [hnid] at hout
        simp only [decide_eq_true_eq]
        omega
      rw [hbrB, hlinB] at hcond
      simp at hcond
  · rw [if_neg hcond]
    simp only [Bool.or_eq_true, not_or, Bool.not_eq_true] at hcond
    have hall : w.nodes.all (fun node =>
        decide ((w.connections.filter
          (fun c => c.targetId == node.id)).length ≤ 1) &&
        decide ((w.connections.filter
          (fun c => c.sourceId == node.id)).length ≤ 1)) = true := by
      have h2 := hcond.2
      cases hv : w.nodes.all (fun node =>
          decide ((w.connections.filter
            (fun c => c.targetId == node.id)).length ≤ 1) &&
          decide ((w.connections.filter
            (fun c => c.sourceId == node.id)).length ≤ 1)) with
      | true => rfl
      | false => rw [hv] at h2; simp at h2
    constructor
    · intro _ n hn
      rw [List.all_eq_true] at hall
      have hx := hall n hn
      simp only [Bool.and_eq_true, decide_eq_true_eq] at hx
      exact hx
    · intro _
      rfl

/-- C5: with no process option supplied and resolvable connection sources, the
crew's process is sequential iff every node has in- and out-degree at most
one, and it is hierarchical otherwise (those are the only two outcomes). -/
theorem claim_C5 (w : WorkflowConfig) (opts : CrewAIAdapterOptions)
    (hopt : opts.process = Option.none)
    (hres : ∀ c ∈ w.connections, c.sourceId ∈ nodeIds w) :
    ((mapWorkflowToCrew w opts).process = CrewAIProcess.sequential ↔
      ∀ n ∈ w.nodes,
        (w.connections.filter (fun c => c.targetId == n.id)).length ≤ 1 ∧
          (w.connections.filter (fun c => c.sourceId == n.id)).length ≤ 1) ∧
      ((mapWorkflowToCrew w opts).process = CrewAIProcess.sequential ∨
        (mapWorkflowToCrew w opts).process = CrewAIProcess.hierarchical) := by
  have hp : (mapWorkflowToCrew w opts).process =
      opts.process.getD (determineProcessType w) := rfl
  rw [hopt] at hp
  simp only [Option.getD_none] at hp
  rw [hp]
  refine ⟨determineProcessType_sequential_iff w hres, ?_⟩
  unfold determineProcessType
  by_cases hcond :
      (w.connections.any (fun conn =>
        decide (1 < (w.connections.filter
          (fun c => c.sourceId == conn.sourceId)).length)) ||
      !w.nodes.all (fun node =>
        decide ((w.connections.filter
          (fun c => c.targetId == node.id)).length ≤ 1) &&
        decide ((w.connections.filter
          (fun c => c.sourceId == node.id)).length ≤ 1))) = true
  · rw [if_pos hcond]; right; rfl
  · rw [if_neg hcond]; left; rfl

/-- Three inline agents in a chain (the sequential half of scenario 6). -/
def agentChainWorkflow : WorkflowConfig :=
  { id := "wf-chain", name := "Chain"
    nodes := [
      { id := "n1", type := NodeType.agent
        agent := some { id := "a1", name := "Agent 1"
                        provider := AIProvider.openai, model := "gpt-4" } },
      { id := "n2", type := NodeType.agent
        agent := some { id := "a2", name := "Agent 2"
                        provider := AIProvider.openai, model := "gpt-4" } },
      { id := "n3", type := NodeType.agent
        agent := some { id := "a3", name := "Agent 3"
                        provider := AIProvider.openai, model := "gpt-4" } }]
    connections := [{ id := "c1", sourceId := "n1", targetId := "n2" },
                    { id := "c2", sourceId := "n2", targetId := "n3" }] }

/-- Witness for `claim_C5` at a three-agent chain. -/
theorem claim_C5_witness :
    ((mapWorkflowToCrew agentChainWorkflow {}).process =
        CrewAIProcess.sequential ↔
      ∀ n ∈ agentChainWorkflow.nodes,
        (agentChainWorkflow.connections.filter
          (fun c => c.targetId == n.id)).length ≤ 1 ∧
          (agentChainWorkflow.connections.filter
            (fun c => c.sourceId == n.id)).length ≤ 1) ∧
      ((mapWorkflowToCrew agentChainWorkflow {}).process =
          CrewAIProcess.sequential ∨
        (mapWorkflowToCrew agentChainWorkflow {}).process =
          CrewAIProcess.hierarchical) :=
  claim_C5 agentChainWorkflow {} rfl (by decide)

/-! ## Claim C8 -/

/-- A connection with an unresolvable endpoint is skipped without touching the
accumulator. -/
theorem connStep_unresolved (nodes : List N8nNode)
    (acc : List (String × List (List N8nConnEntry))) (c : WorkflowConnection)
    (h : ((findN8nNode nodes c.sourceId).isSome &&
      (findN8nNode nodes c.targetId).isSome) = false) :
    connStep nodes acc c = acc := by
  unfold connStep
  cases hf : findN8nNode nodes c.sourceId with
  | none => rfl
  | some f =>
      cases ht : findN8nNode nodes c.targetId with
      | none => rfl
      | some g => rw [hf, ht] at h; simp at h

/-- Folding the connection builder ignores unresolvable connections. -/
theorem connStep_foldl_filter (nodes : List N8nNode)
    (l : List WorkflowConnection) :
    ∀ acc, l.foldl (connStep nodes) acc =
      (l.filter (fun c => (findN8nNode nodes c.sourceId).isSome &&
        (findN8nNode nodes c.targetId).isSome)).foldl (connStep nodes) acc := by
  induction l with
  | nil => intro acc; rfl
  | cons c t ih =>
      intro acc
      rw [List.foldl_cons, List.filter_cons]
      cases hc : ((findN8nNode nodes c.sourceId).isSome &&
          (findN8nNode nodes c.targetId).isSome) with
      | true => rw [if_pos (by simp [hc]), List.foldl_cons, ih]
      | false =>
          rw [if_neg (by simp [hc]), connStep_unresolved nodes acc c hc, ih]

/-- C8: `mapWorkflowToN8n` never fails on a malformed connection endpoint
(the embedding is total); a connection either of whose endpoints resolves to
no generated node is silently dropped from the connections record, and all
resolvable connections are emitted exactly as if the malformed ones were
absent. -/
theorem claim_C8 (w : WorkflowConfig) (opts : N8nAdapterOptions) :
    (mapWorkflowToN8n w opts).connections =
      buildN8nConnections (n8nNodes w opts)
        (w.connections.filter (fun c =>
          (findN8nNode (n8nNodes w opts) c.sourceId).isSome &&
          (findN8nNode (n8nNodes w opts) c.targetId).isSome)) := by
  have h1 : (mapWorkflowToN8n w opts).connections =
      buildN8nConnections (n8nNodes w opts) w.connections := rfl
  rw [h1]
  unfold buildN8nConnections
  exact connStep_foldl_filter (n8nNodes w opts) w.connections []


/-! ## Claim C4 -/

/-- A keyed `mapSet` fold leaves untouched keys alone. -/
theorem foldl_mapSet_untouched {α β : Type} (key : α → String) (val : α → β)
    (l : List α) :
    ∀ (m : List (String × β)) (k : String), (∀ x ∈ l, key x ≠ k) →
      mapGet? (l.foldl (fun m a => mapSet m (key a) (val a)) m) k =
        mapGet? m k := by
  induction l with
  | nil => intro m k _; rfl
  | cons a t ih =>
      intro m k h
      rw [List.foldl_cons, ih (mapSet m (key a) (val a)) k
        (fun x hx => h x (List.mem_cons_of_mem a hx)),
        mapGet?_mapSet_ne m (key a) k (val a)
          (fun he => h a (List.mem_cons_self a t) he.symm)]

/-- A keyed `mapSet` fold stores, for each key hit by the list, the value of
the last list element with that key. -/
theorem foldl_mapSet_lookup {α β : Type} (key : α → String) (val : α → β)
    (l : List α) :
    ∀ (m0 : List (String × β)) (k : String), (∃ x ∈ l, key x = k) →
      ∃ x, x ∈ l ∧ key x = k ∧
        mapGet? (l.foldl (fun m a => mapSet m (key a) (val a)) m0) k =
          some (val x) := by
  induction l with
  | nil => intro m0 k h; simp at h
  | cons a t ih =>
      intro m0 k h
      by_cases hex : ∃ x ∈ t, key x = k
      · obtain ⟨x, hx, hkx, hlook⟩ := ih (mapSet m0 (key a) (val a)) k hex
        exact ⟨x, List.mem_cons_of_mem a hx, hkx, hlook⟩
      · have hka : key a = k := by
          obtain ⟨x, hx, hkx⟩ := h
          rcases List.mem_cons.mp hx with hxa | hxt
          · rw [hxa] at hkx; exact hkx
          · exact absurd ⟨x, hxt, hkx⟩ hex
        refine ⟨a, List.mem_cons_self a t, hka, ?_⟩
        rw [List.foldl_cons,
          foldl_mapSet_untouched key val t (mapSet m0 (key a) (val a)) k
            (fun x hx he => hex ⟨x, hx, he⟩),
          hka, mapGet?_mapSet_self]

/-- The `next` computation for a node with at least two outgoing connections:
conditional map if any outgoing connection has a truthy condition, parallel
array otherwise. -/
theorem lgNext_multi (w : WorkflowConfig) (x : WorkflowNode)
    (hlen : 2 ≤ (w.connections.filter (fun c => c.sourceId == x.id)).length) :
    lgNext w x =
      (if (w.connections.filter (fun c => c.sourceId == x.id)).any
          (fun c => jsTruthy c.condition) then
        some (LgNext.condMap (jsFromEntries
          ((w.connections.filter (fun c => c.sourceId == x.id)).map
            (fun c => (jsOrStr (c.condition.getD "") "default", c.targetId)))))
      else
        some (LgNext.par
          ((w.connections.filter (fun c => c.sourceId == x.id)).map
            (fun c => c.targetId)))) := by
  unfold lgNext
  rcases hos : w.connections.filter (fun c => c.sourceId == x.id) with
    _ | ⟨a, _ | ⟨b, t⟩⟩
  · rw [hos] at hlen; simp at hlen
  · rw [hos] at hlen; simp at hlen
  · rw [hos]

/-- C4: for a node with two or more outgoing connections,
`mapWorkflowToLangGraph` stores a node entry whose `next` is the conditional
map keyed by each connection's condition label ("default" when absent) as soon
as any outgoing connection carries a (truthy) condition, and the parallel list
of target ids when none does. -/
theorem claim_C4 (w : WorkflowConfig) (opts : LangChainAdapterOptions)
    (n : WorkflowNode) (hn : n ∈ w.nodes)
    (hlen : 2 ≤ (w.connections.filter (fun c => c.sourceId == n.id)).length) :
    ∃ lg, mapGet? (mapWorkflowToLangGraph w opts).nodes n.id = some lg ∧
      ((w.connections.filter (fun c => c.sourceId == n.id)).any
          (fun c => jsTruthy c.condition) = true →
        lg.next = some (LgNext.condMap (jsFromEntries
          ((w.connections.filter (fun c => c.sourceId == n.id)).map
            (fun c => (jsOrStr (c.condition.getD "") "default",
              c.targetId)))))) ∧
      ((w.connections.filter (fun c => c.sourceId == n.id)).any
          (fun c => jsTruthy c.condition) = false →
        lg.next = some (LgNext.par
          ((w.connections.filter (fun c => c.sourceId == n.id)).map
            (fun c => c.targetId)))) := by
  have hnodes : (mapWorkflowToLangGraph w opts).nodes =
      w.nodes.foldl (fun m node => mapSet m node.id (mkLgNode w opts node))
        [] := rfl
  obtain ⟨x, hxmem, hxid, hlook⟩ :=
    foldl_mapSet_lookup (fun node => node.id) (mkLgNode w opts) w.nodes []
      n.id ⟨n, hn, rfl⟩
  refine ⟨mkLgNode w opts x, by rw [hnodes]; exact hlook, ?_, ?_⟩
  · intro hany
    have hnext : (mkLgNode w opts x).next = lgNext w x := rfl
    rw [hnext, lgNext_multi w x (by rw [hxid]; exact hlen), hxid,
      if_pos hany]
  · intro hany
    have hnext : (mkLgNode w opts x).next = lgNext w x := rfl
    rw [hnext, lgNext_multi w x (by rw [hxid]; exact hlen), hxid,
      if_neg (by simp [hany])]

/-- A node with one conditioned ("yes") and one unconditioned outgoing edge
(scenario 5). -/
def condFanWorkflow : WorkflowConfig :=
  { id := "wf-cond", name := "Conditional Fan"
    nodes := [{ id := "a", type := NodeType.condition },
              { id := "b", type := NodeType.endNode },
              { id := "c", type := NodeType.endNode }]
    connections := [{ id := "c1", sourceId := "a", targetId := "b",
                      condition := some "yes" },
                    { id := "c2", sourceId := "a", targetId := "c" }] }

/-- Witness for `claim_C4` at scenario 5's mixed fan-out. -/
theorem claim_C4_witness :
    ∃ lg, mapGet? (mapWorkflowToLangGraph condFanWorkflow {}).nodes "a" =
        some lg ∧
      ((condFanWorkflow.connections.filter (fun c => c.sourceId == "a")).any
          (fun c => jsTruthy c.condition) = true →
        lg.next = some (LgNext.condMap (jsFromEntries
          ((condFanWorkflow.connections.filter
            (fun c => c.sourceId == "a")).map
            (fun c => (jsOrStr (c.condition.getD "") "default",
              c.targetId)))))) ∧
      ((condFanWorkflow.connections.filter (fun c => c.sourceId == "a")).any
          (fun c => jsTruthy c.condition) = false →
        lg.next = some (LgNext.par
          ((condFanWorkflow.connections.filter
            (fun c => c.sourceId == "a")).map (fun c => c.targetId)))) :=
  claim_C4 condFanWorkflow {}
    { id := "a", type := NodeType.condition } (by decide) (by decide)


/-! ## Graph-level notions for the DFS and Kahn proofs -/

/-- The edge relation realised by an adjacency map. -/
def AEdge (adj : List (String × List String)) (x y : String) : Prop :=
  y ∈ adjGetD adj x

instance (adj : List (String × List String)) (x y : String) :
    Decidable (AEdge adj x y) := by
  unfold AEdge
  infer_instance

/-- Position of the first occurrence of an element (length if absent). -/
def idxOf : List String → String → Nat
  | [], _ => 0
  | a :: l, x => if a = x then 0 else idxOf l x + 1

theorem idxOf_nil (x : String) : idxOf [] x = 0 := rfl

theorem idxOf_cons (a : String) (l : List String) (x : String) :
    idxOf (a :: l) x = if a = x then 0 else idxOf l x + 1 := rfl

theorem idxOf_lt_length (l : List String) (x : String) (h : x ∈ l) :
    idxOf l x < l.length := by
  induction l with
  | nil => simp at h
  | cons a t ih =>
      rw [idxOf_cons]
      by_cases hax : a = x
      · rw [if_pos hax]; simp
      · rw [if_neg hax]
        have hxt : x ∈ t := by
          rcases List.mem_cons.mp h with h1 | h1
          · exact absurd h1.symm hax
          · exact h1
        simpa [Nat.succ_lt_succ_iff] using ih hxt

theorem idxOf_append_left (l d : List String) (x : String) (h : x ∈ l) :
    idxOf (l ++ d) x = idxOf l x := by
  induction l with
  | nil => simp at h
  | cons a t ih =>
      rw [List.cons_append, idxOf_cons, idxOf_cons]
      by_cases hax : a = x
      · rw [if_pos hax, if_pos hax]
      · rw [if_neg hax, if_neg hax]
        have hxt : x ∈ t := by
          rcases List.mem_cons.mp h with h1 | h1
          · exact absurd h1.symm hax
          · exact h1
        rw [ih hxt]

theorem idxOf_append_right (l d : List String) (x : String) (h : x ∉ l) :
    idxOf (l ++ d) x = l.length + idxOf d x := by
  induction l with
  | nil => simp [idxOf_nil]
  | cons a t ih =>
      rw [List.cons_append, idxOf_cons]
      have hax : ¬ a = x := fun he => h (by rw [he]; exact List.mem_cons_self x t)
      rw [if_neg hax, ih (fun hxt => h (List.mem_cons_of_mem a hxt))]
      rw [List.length_cons]
      omega

/-- `φ` lists finished nodes in an order compatible with the edges: every edge
from a listed node points to an earlier listed node. -/
def TopoOK (adj : List (String × List String)) (φ : List String) : Prop :=
  ∀ x ∈ φ, ∀ y, AEdge adj x y → y ∈ φ ∧ idxOf φ y < idxOf φ x

theorem topoOK_append_one (adj : List (String × List String))
    (φ : List String) (u : String) (hu : u ∉ φ) (htopo : TopoOK adj φ)
    (hedges : ∀ y, AEdge adj u y → y ∈ φ) : TopoOK adj (φ ++ [u]) := by
  intro x hx y hxy
  rcases List.mem_append.mp hx with hxφ | hxu
  · obtain ⟨hyφ, hlt⟩ := htopo x hxφ y hxy
    refine ⟨List.mem_append_left _ hyφ, ?_⟩
    rw [idxOf_append_left φ [u] y hyφ, idxOf_append_left φ [u] x hxφ]
    exact hlt
  · have hxu' : x = u := by simpa using hxu
    have hyφ := hedges y (hxu' ▸ hxy)
    refine ⟨List.mem_append_left _ hyφ, ?_⟩
    rw [hxu', idxOf_append_left φ [u] y hyφ, idxOf_append_right φ [u] u hu]
    have := idxOf_lt_length φ y hyφ
    omega

/-- Along a reflexive-transitive edge path out of a `TopoOK` list, the index
never increases. -/
theorem topoOK_path_le (adj : List (String × List String)) (φ : List String)
    (htopo : TopoOK adj φ) (z w : String)
    (h : Relation.ReflTransGen (AEdge adj) z w) (hz : z ∈ φ) :
    w ∈ φ ∧ idxOf φ w ≤ idxOf φ z := by
  induction h with
  | refl => exact ⟨hz, Nat.le_refl _⟩
  | tail _hp he ih =>
      obtain ⟨hb, hble⟩ := ih
      obtain ⟨hc, hclt⟩ := htopo _ hb _ he
      exact ⟨hc, Nat.le_trans (Nat.le_of_lt hclt) hble⟩

/-- A `TopoOK` list admits no cycle through its members. -/
theorem topoOK_no_cycle (adj : List (String × List String)) (φ : List String)
    (htopo : TopoOK adj φ) (x : String) (hx : x ∈ φ) :
    ¬ Relation.TransGen (AEdge adj) x x := by
  intro hcyc
  obtain ⟨y, hxy, hyx⟩ := (Relation.TransGen.head'_iff).mp hcyc
  obtain ⟨hy, hylt⟩ := htopo x hx y hxy
  obtain ⟨_, hle⟩ := topoOK_path_le adj φ htopo y x hyx hy
  omega

/-- Universe of all strings the DFS can ever visit: keys and targets. -/
def dfsU (adj : List (String × List String)) : List String :=
  ((adj.map Prod.fst) ++ (adj.map Prod.snd).flatten).dedup

theorem mem_dfsU_of_target (adj : List (String × List String)) (x y : String)
    (h : y ∈ adjGetD adj x) : y ∈ dfsU adj := by
  unfold dfsU
  rw [List.mem_dedup, List.mem_append]
  right
  unfold adjGetD mapGetD mapGet? at h
  cases hf : List.find? (fun q => q.1 == x) adj with
  | none => rw [hf] at h; simp at h
  | some p =>
      rw [hf] at h
      simp only [Option.map_some', Option.getD_some] at h
      have hp := List.mem_of_find?_eq_some hf
      rw [List.mem_flatten]
      exact ⟨p.2, List.mem_map_of_mem Prod.snd hp, h⟩

theorem adjGetD_length_le (adj : List (String × List String)) (x : String) :
    (adjGetD adj x).length ≤ adjSize adj := by
  unfold adjGetD mapGetD mapGet?
  cases hf : List.find? (fun q => q.1 == x) adj with
  | none => simp
  | some p =>
      simp only [Option.map_some', Option.getD_some]
      have hp := List.mem_of_find?_eq_some hf
      unfold adjSize
      exact List.single_le_sum (fun n _ => Nat.zero_le n) _
        (List.mem_map_of_mem (fun q => q.2.length) hp)

theorem dfsU_length_le (adj : List (String × List String)) :
    (dfsU adj).length ≤ adj.length + adjSize adj := by
  unfold dfsU
  calc ((adj.map Prod.fst) ++ (adj.map Prod.snd).flatten).dedup.length
      ≤ ((adj.map Prod.fst) ++ (adj.map Prod.snd).flatten).length :=
        (List.dedup_sublist _).length_le
    _ = adj.length + adjSize adj := by
        rw [List.length_append, List.length_map, List.length_flatten]
        unfold adjSize
        rw [List.map_map]
        rfl

/-- Remaining DFS potential: for each unvisited universe node, its neighbour
count plus one. -/
def potSum (adj : List (String × List String)) (v : List String) : Nat :=
  (((dfsU adj).filter (fun k => !v.contains k)).map
    (fun k => (adjGetD adj k).length + 1)).sum

/-- Visiting an unvisited universe node decreases the potential by exactly its
own contribution. -/
theorem potSum_visit (adj : List (String × List String)) (v : List String)
    (n : String) (hnU : n ∈ dfsU adj) (hnv : n ∉ v) :
    potSum adj v = potSum adj (n :: v) + ((adjGetD adj n).length + 1) := by
  unfold potSum
  have hnd : (dfsU adj).Nodup := List.nodup_dedup _
  revert hnd hnU
  generalize dfsU adj = U
  intro hnU hnd
  induction U with
  | nil => simp at hnU
  | cons a t ih =>
      rw [List.filter_cons, List.filter_cons]
      by_cases han : a = n
      · subst han
        rw [if_pos (by simp [hnv]), if_neg (by simp)]
        have hat : a ∉ t := (List.nodup_cons.mp hnd).1
        have : t.filter (fun k => !v.contains k) =
            t.filter (fun k => !(a :: v).contains k) := by
          apply List.filter_congr
          intro x hx
          have hxa : x ≠ a := fun he => hat (he ▸ hx)
          simp [hxa]
        rw [this]
        simp [Nat.add_comm, Nat.add_left_comm]
      · have hnt : n ∈ t := by
          rcases List.mem_cons.mp hnU with h1 | h1
          · exact absurd h1.symm han
          · exact h1
        have hrec := ih hnt (List.nodup_cons.mp hnd).2
        by_cases hav : a ∈ v
        · rw [if_neg (by simp [hav]), if_neg (by simp [hav, han])]
          exact hrec
        · rw [if_pos (by simp [hav]), if_pos (by simp [hav, han])]
          simp only [List.map_cons, List.sum_cons]
          omega

/-- The potential is antitone in the visited set. -/
theorem potSum_mono (adj : List (String × List String)) (v v' : List String)
    (h : ∀ x ∈ v, x ∈ v') : potSum adj v' ≤ potSum adj v := by
  unfold potSum
  generalize dfsU adj = U
  induction U with
  | nil => simp
  | cons a t ih =>
      rw [List.filter_cons, List.filter_cons]
      by_cases hav' : a ∈ v'
      · rw [if_neg (by simp [hav'])]
        by_cases hav : a ∈ v
        · rw [if_neg (by simp [hav])]; exact ih
        · rw [if_pos (by simp [hav])]
          simp only [List.map_cons, List.sum_cons]
          omega
      · have hav : a ∉ v := fun hx => hav' (h a hx)
        rw [if_pos (by simp [hav']), if_pos (by simp [hav])]
        simp only [List.map_cons, List.sum_cons]
        omega

/-- Summing a pointwise-bounded map is bounded by length times the bound. -/
theorem sum_map_le_length_mul {α : Type} (l : List α) (f : α → Nat) (n : Nat)
    (h : ∀ x ∈ l, f x ≤ n) : (l.map f).sum ≤ l.length * n := by
  induction l with
  | nil => simp
  | cons a t ih =>
      rw [List.map_cons, List.sum_cons, List.length_cons]
      have h1 := h a (List.mem_cons_self a t)
      have h2 := ih (fun x hx => h x (List.mem_cons_of_mem a hx))
      calc f a + (t.map f).sum ≤ n + t.length * n := by omega
        _ = (t.length + 1) * n := by ring

/-- The potential is bounded by the crude universe bound. -/
theorem potSum_le (adj : List (String × List String)) (v : List String) :
    potSum adj v ≤ (adj.length + adjSize adj) * (adjSize adj + 1) := by
  have h1 : potSum adj v ≤ potSum adj [] := potSum_mono adj [] v (by simp)
  refine Nat.le_trans h1 ?_
  unfold potSum
  have h2 := sum_map_le_length_mul
    ((dfsU adj).filter (fun k => !([] : List String).contains k))
    (fun k => (adjGetD adj k).length + 1) (adjSize adj + 1)
    (fun x _ => by
      show (adjGetD adj x).length + 1 ≤ adjSize adj + 1
      have := adjGetD_length_le adj x
      omega)
  refine Nat.le_trans h2 ?_
  have h3 : ((dfsU adj).filter
      (fun k => !([] : List String).contains k)).length ≤ (dfsU adj).length :=
    (List.filter_sublist _).length_le
  have h4 := dfsU_length_le adj
  exact Nat.mul_le_mul (Nat.le_trans h3 h4) (Nat.le_refl _)


/-! ## DFS invariants -/

theorem dfsNbrs_nil (adj : List (String × List String)) (fuel : Nat)
    (u : String) (v s : List String) :
    dfsNbrs adj fuel [] u v s = (false, v, s.erase u) := by
  cases fuel <;> rfl

theorem dfsNbrs_zero (adj : List (String × List String)) (n : String)
    (rest : List String) (u : String) (v s : List String) :
    dfsNbrs adj 0 (n :: rest) u v s = (true, v, s) := rfl

theorem dfsNbrs_succ (adj : List (String × List String)) (fuel : Nat)
    (n : String) (rest : List String) (u : String) (v s : List String) :
    dfsNbrs adj (fuel + 1) (n :: rest) u v s =
      if n ∈ v then
        (if n ∈ s then (true, v, s) else dfsNbrs adj fuel rest u v s)
      else
        match dfsNbrs adj fuel (adjGetD adj n) n (n :: v) (n :: s) with
        | (true, v', s') => (true, v', s')
        | (false, v', s') => dfsNbrs adj fuel rest u v' s' := rfl

/-- The DFS only grows the visited set. -/
theorem dfs_mono (adj : List (String × List String)) :
    ∀ fuel ns u v s x, x ∈ v → x ∈ (dfsNbrs adj fuel ns u v s).2.1 := by
  intro fuel
  induction fuel with
  | zero =>
      intro ns u v s x hx
      cases ns with
      | nil => rw [dfsNbrs_nil]; exact hx
      | cons n rest => rw [dfsNbrs_zero]; exact hx
  | succ f ih =>
      intro ns u v s x hx
      cases ns with
      | nil => rw [dfsNbrs_nil]; exact hx
      | cons n rest =>
          rw [dfsNbrs_succ]
          by_cases hnv : n ∈ v
          · rw [if_pos hnv]
            by_cases hns : n ∈ s
            · rw [if_pos hns]; exact hx
            · rw [if_neg hns]; exact ih rest u v s x hx
          · rw [if_neg hnv]
            rcases hcall : dfsNbrs adj f (adjGetD adj n) n (n :: v) (n :: s)
              with ⟨b, v', s'⟩
            have hv' : x ∈ v' := by
              have hm := ih (adjGetD adj n) n (n :: v) (n :: s) x
                (List.mem_cons_of_mem n hx)
              rw [hcall] at hm
              exact hm
            cases b
            · exact ih rest u v' s' x hv'
            · exact hv'

/-- On a false return the DFS restores the recursion stack, minus the node
being finished. -/
theorem dfs_stack (adj : List (String × List String)) :
    ∀ fuel ns u v s v' s',
      dfsNbrs adj fuel ns u v s = (false, v', s') → s' = s.erase u := by
  intro fuel
  induction fuel with
  | zero =>
      intro ns u v s v' s' heq
      cases ns with
      | nil => rw [dfsNbrs_nil] at heq; injection heq with _ h2; injection h2 with _ h3; rw [← h3]
      | cons n rest => rw [dfsNbrs_zero] at heq; injection heq with h1; simp at h1
  | succ f ih =>
      intro ns u v s v' s' heq
      cases ns with
      | nil => rw [dfsNbrs_nil] at heq; injection heq with _ h2; injection h2 with _ h3; rw [← h3]
      | cons n rest =>
          rw [dfsNbrs_succ] at heq
          by_cases hnv : n ∈ v
          · rw [if_pos hnv] at heq
            by_cases hns : n ∈ s
            · rw [if_pos hns] at heq; injection heq with h1; simp at h1
            · rw [if_neg hns] at heq; exact ih rest u v s v' s' heq
          · rw [if_neg hnv] at heq
            rcases hcall : dfsNbrs adj f (adjGetD adj n) n (n :: v) (n :: s)
              with ⟨b, v1, s1⟩
            rw [hcall] at heq
            cases b
            · have hs1 : s1 = s := by
                have := ih (adjGetD adj n) n (n :: v) (n :: s) v1 s1 hcall
                rw [List.erase_cons_head] at this
                exact this
              rw [hs1] at heq
              exact ih rest u v1 s v' s' heq
            · injection heq with h1; simp at h1


/-- Every member of a reverse-edge chain reaches the head. -/
theorem chain_path (adj : List (String × List String)) :
    ∀ s : List String, List.Chain' (fun a b => AEdge adj b a) s →
      ∀ u, s.head? = some u → ∀ n ∈ s,
        Relation.ReflTransGen (AEdge adj) n u := by
  intro s
  induction s with
  | nil => intro _ u hu; simp at hu
  | cons a t ih =>
      intro hchain u hu n hn
      have hau : a = u := by simpa using hu
      subst hau
      rcases List.mem_cons.mp hn with h1 | h1
      · rw [h1]
      · cases t with
        | nil => simp at h1
        | cons b t' =>
            obtain ⟨hedge, hchain'⟩ := List.chain'_cons.mp hchain
            have hpath := ih hchain' b rfl n h1
            exact Relation.ReflTransGen.tail hpath hedge

/-- Soundness of the DFS: with enough fuel and a well-formed recursion stack,
a `true` answer exhibits a directed cycle. -/
theorem dfs_sound (adj : List (String × List String)) :
    ∀ fuel ns u v s,
      (∀ y ∈ ns, AEdge adj u y) →
      (∀ y ∈ ns, y ∈ dfsU adj) →
      List.Chain' (fun a b => AEdge adj b a) s →
      s.head? = some u →
      ns.length + potSum adj v ≤ fuel →
      (dfsNbrs adj fuel ns u v s).1 = true →
      ∃ x, Relation.TransGen (AEdge adj) x x := by
  intro fuel
  induction fuel with
  | zero =>
      intro ns u v s _ _ _ _ hfuel htrue
      cases ns with
      | nil => rw [dfsNbrs_nil] at htrue; simp at htrue
      | cons n rest => rw [List.length_cons] at hfuel; omega
  | succ f ih =>
      intro ns u v s hns hUns hchain hhead hfuel htrue
      cases ns with
      | nil => rw [dfsNbrs_nil] at htrue; simp at htrue
      | cons n rest =>
          rw [dfsNbrs_succ] at htrue
          by_cases hnv : n ∈ v
          · rw [if_pos hnv] at htrue
            by_cases hnst : n ∈ s
            · have hpath := chain_path adj s hchain u hhead n hnst
              have hedge : AEdge adj u n := hns n (List.mem_cons_self n rest)
              exact ⟨n, Relation.TransGen.tail' hpath hedge⟩
            · rw [if_neg hnst] at htrue
              refine ih rest u v s (fun y hy => hns y (List.mem_cons_of_mem n hy))
                (fun y hy => hUns y (List.mem_cons_of_mem n hy)) hchain hhead
                ?_ htrue
              rw [List.length_cons] at hfuel
              omega
          · rw [if_neg hnv] at htrue
            have hpot := potSum_visit adj v n
              (hUns n (List.mem_cons_self n rest)) hnv
            obtain ⟨a, t, hst⟩ : ∃ a t, s = a :: t := by
              cases s with
              | nil => simp at hhead
              | cons a t => exact ⟨a, t, rfl⟩
            have hau : a = u := by rw [hst] at hhead; simpa using hhead
            rcases hcall : dfsNbrs adj f (adjGetD adj n) n (n :: v) (n :: s)
              with ⟨b, v1, s1⟩
            rw [hcall] at htrue
            cases b
            · have hs1 : s1 = s := by
                have := dfs_stack adj f (adjGetD adj n) n (n :: v) (n :: s)
                  v1 s1 hcall
                rw [List.erase_cons_head] at this
                exact this
              rw [hs1] at htrue
              have hv1 : ∀ x ∈ (n :: v), x ∈ v1 := by
                intro x hx
                have hm := dfs_mono adj f (adjGetD adj n) n (n :: v) (n :: s) x hx
                rw [hcall] at hm
                exact hm
              have hmono := potSum_mono adj (n :: v) v1 hv1
              refine ih rest u v1 s
                (fun y hy => hns y (List.mem_cons_of_mem n hy))
                (fun y hy => hUns y (List.mem_cons_of_mem n hy)) hchain hhead
                ?_ htrue
              rw [List.length_cons] at hfuel
              omega
            · refine ih (adjGetD adj n) n (n :: v) (n :: s)
                (fun y hy => hy) (fun y hy => mem_dfsU_of_target adj n y hy)
                ?_ rfl ?_ (by rw [hcall])
              · rw [hst]
                rw [hst] at hchain
                apply List.chain'_cons.mpr
                refine ⟨?_, hchain⟩
                rw [hau]
                exact hns n (List.mem_cons_self n rest)
              · rw [List.length_cons] at hfuel
                omega


/-- Completeness invariant of the DFS: on a false return, the finished set
(visited minus stack) extends to a list that is topologically ordered with
respect to the adjacency edges.  `done` is the already-processed part of the
current node's neighbour list. -/
theorem dfs_complete_inv (adj : List (String × List String)) :
    ∀ fuel ns u v s done φ v' s',
      adjGetD adj u = done ++ ns →
      (∀ y ∈ done, y ∈ φ) →
      s.Nodup →
      (∃ t, s = u :: t) →
      (∀ x ∈ s, x ∈ v) →
      v.Nodup →
      (∀ x, x ∈ φ ↔ (x ∈ v ∧ x ∉ s)) →
      φ.Nodup →
      TopoOK adj φ →
      dfsNbrs adj fuel ns u v s = (false, v', s') →
      s' = s.erase u ∧ (∀ x ∈ v, x ∈ v') ∧ v'.Nodup ∧
        ∃ φ', (∃ δ, φ' = φ ++ δ) ∧ φ'.Nodup ∧ TopoOK adj φ' ∧
          (∀ x, x ∈ φ' ↔ (x ∈ v' ∧ x ∉ s')) := by
  intro fuel
  induction fuel with
  | zero =>
      intro ns u v s done φ v' s' hadj hdone hsnd hhead hsv hvnd hφ hφnd htopo heq
      cases ns with
      | cons n rest => rw [dfsNbrs_zero] at heq; injection heq with h1; simp at h1
      | nil =>
          rw [dfsNbrs_nil] at heq
          injection heq with _ h2
          injection h2 with h2v h2s
          obtain ⟨t, hst⟩ := hhead
          subst hst
          have huv : u ∈ v := hsv u (List.mem_cons_self u t)
          have hunt : u ∉ t := (List.nodup_cons.mp hsnd).1
          have huφ : u ∉ φ := by
            intro hu
            exact ((hφ u).mp hu).2 (List.mem_cons_self u t)
          refine ⟨by rw [← h2s, List.erase_cons_head], ?_, ?_, ?_⟩
          · intro x hx; rw [← h2v]; exact hx
          · rw [← h2v]; exact hvnd
          · refine ⟨φ ++ [u], ⟨[u], rfl⟩, ?_, ?_, ?_⟩
            · refine List.Nodup.append hφnd (List.nodup_singleton u) ?_
              intro a ha hb
              have hau : a = u := by simpa using hb
              exact huφ (hau ▸ ha)
            · refine topoOK_append_one adj φ u huφ htopo ?_
              intro y hy
              unfold AEdge at hy
              rw [hadj, List.append_nil] at hy
              exact hdone y hy
            · intro x
              rw [← h2v, ← h2s, List.erase_cons_head, List.mem_append,
                List.mem_singleton]
              constructor
              · intro hx
                rcases hx with hx | hx
                · obtain ⟨hxv, hxs⟩ := (hφ x).mp hx
                  exact ⟨hxv, fun hxt => hxs (List.mem_cons_of_mem u hxt)⟩
                · subst hx; exact ⟨huv, hunt⟩
              · intro ⟨hxv, hxt⟩
                by_cases hxu : x = u
                · right; exact hxu
                · left
                  refine (hφ x).mpr ⟨hxv, ?_⟩
                  intro hxs
                  rcases List.mem_cons.mp hxs with h1 | h1
                  · exact hxu h1
                  · exact hxt h1
  | succ f ih =>
      intro ns u v s done φ v' s' hadj hdone hsnd hhead hsv hvnd hφ hφnd htopo heq
      cases ns with
      | nil =>
          rw [dfsNbrs_nil] at heq
          injection heq with _ h2
          injection h2 with h2v h2s
          obtain ⟨t, hst⟩ := hhead
          subst hst
          have huv : u ∈ v := hsv u (List.mem_cons_self u t)
          have hunt : u ∉ t := (List.nodup_cons.mp hsnd).1
          have huφ : u ∉ φ := by
            intro hu
            exact ((hφ u).mp hu).2 (List.mem_cons_self u t)
          refine ⟨by rw [← h2s, List.erase_cons_head], ?_, ?_, ?_⟩
          · intro x hx; rw [← h2v]; exact hx
          · rw [← h2v]; exact hvnd
          · refine ⟨φ ++ [u], ⟨[u], rfl⟩, ?_, ?_, ?_⟩
            · refine List.Nodup.append hφnd (List.nodup_singleton u) ?_
              intro a ha hb
              have hau : a = u := by simpa using hb
              exact huφ (hau ▸ ha)
            · refine topoOK_append_one adj φ u huφ htopo ?_
              intro y hy
              unfold AEdge at hy
              rw [hadj, List.append_nil] at hy
              exact hdone y hy
            · intro x
              rw [← h2v, ← h2s, List.erase_cons_head, List.mem_append,
                List.mem_singleton]
              constructor
              · intro hx
                rcases hx with hx | hx
                · obtain ⟨hxv, hxs⟩ := (hφ x).mp hx
                  exact ⟨hxv, fun hxt => hxs (List.mem_cons_of_mem u hxt)⟩
                · subst hx; exact ⟨huv, hunt⟩
              · intro ⟨hxv, hxt⟩
                by_cases hxu : x = u
                · right; exact hxu
                · left
                  refine (hφ x).mpr ⟨hxv, ?_⟩
                  intro hxs
                  rcases List.mem_cons.mp hxs with h1 | h1
                  · exact hxu h1
                  · exact hxt h1
      | cons n rest =>
          rw [dfsNbrs_succ] at heq
          by_cases hnv : n ∈ v
          · rw [if_pos hnv] at heq
            by_cases hnst : n ∈ s
            · rw [if_pos hnst] at heq
              injection heq with h1
              simp at h1
            · rw [if_neg hnst] at heq
              refine ih rest u v s (done ++ [n]) φ v' s' ?_ ?_ hsnd hhead hsv
                hvnd hφ hφnd htopo heq
              · rw [hadj]; simp
              · intro y hy
                rcases List.mem_append.mp hy with h1 | h1
                · exact hdone y h1
                · have hyn : y = n := by simpa using h1
                  subst hyn
                  exact (hφ y).mpr ⟨hnv, hnst⟩
          · rw [if_neg hnv] at heq
            have hnsm : n ∉ s := fun hn => hnv (hsv n hn)
            rcases hcall : dfsNbrs adj f (adjGetD adj n) n (n :: v) (n :: s)
              with ⟨b, v1, s1⟩
            rw [hcall] at heq
            cases b
            · have hs1 : s1 = s := by
                have := dfs_stack adj f (adjGetD adj n) n (n :: v) (n :: s)
                  v1 s1 hcall
                rw [List.erase_cons_head] at this
                exact this
              rw [hs1] at hcall heq
              obtain ⟨hcs, hcmono, hcvnd, φ1, ⟨δ1, hφ1⟩, hφ1nd, hφ1topo, hφ1char⟩ :=
                ih (adjGetD adj n) n (n :: v) (n :: s) [] φ v1 s
                  (by simp) (by simp)
                  (List.nodup_cons.mpr ⟨hnsm, hsnd⟩) ⟨s, rfl⟩
                  (by
                    intro x hx
                    rcases List.mem_cons.mp hx with h1 | h1
                    · rw [h1]; exact List.mem_cons_self n v
                    · exact List.mem_cons_of_mem n (hsv x h1))
                  (List.nodup_cons.mpr ⟨hnv, hvnd⟩)
                  (by
                    intro x
                    constructor
                    · intro hx
                      obtain ⟨hxv, hxs⟩ := (hφ x).mp hx
                      refine ⟨List.mem_cons_of_mem n hxv, ?_⟩
                      intro hxns
                      rcases List.mem_cons.mp hxns with h1 | h1
                      · rw [h1] at hxv; exact hnv hxv
                      · exact hxs h1
                    · intro ⟨hxnv, hxns⟩
                      have hxn : x ≠ n := by
                        intro hxe
                        exact hxns (hxe ▸ List.mem_cons_self n s)
                      have hxv : x ∈ v := by
                        rcases List.mem_cons.mp hxnv with h1 | h1
                        · exact absurd h1 hxn
                        · exact h1
                      refine (hφ x).mpr ⟨hxv, ?_⟩
                      intro hxs
                      exact hxns (List.mem_cons_of_mem n hxs))
                  hφnd htopo hcall
              have hnφ1 : n ∈ φ1 := by
                refine (hφ1char n).mpr ⟨hcmono n (List.mem_cons_self n v), hnsm⟩
              obtain ⟨hfs, hfmono, hfvnd, φ2, ⟨δ2, hφ2⟩, hφ2nd, hφ2topo, hφ2char⟩ :=
                ih rest u v1 s (done ++ [n]) φ1 v' s'
                  (by rw [hadj]; simp)
                  (by
                    intro y hy
                    rcases List.mem_append.mp hy with h1 | h1
                    · rw [hφ1]
                      exact List.mem_append_left δ1 (hdone y h1)
                    · have hyn : y = n := by simpa using h1
                      subst hyn
                      exact hnφ1)
                  hsnd hhead
                  (fun x hx => hcmono x (List.mem_cons_of_mem n (hsv x hx)))
                  hcvnd hφ1char hφ1nd hφ1topo heq
              refine ⟨hfs, ?_, hfvnd, φ2, ⟨δ1 ++ δ2, by rw [hφ2, hφ1, List.append_assoc]⟩,
                hφ2nd, hφ2topo, hφ2char⟩
              intro x hx
              exact hfmono x (hcmono x (List.mem_cons_of_mem n hx))
            · injection heq with h1
              simp at h1


theorem detectLoop_nil (adj : List (String × List String)) (fuel : Nat)
    (v s : List String) : detectLoop adj fuel [] v s = false := rfl

theorem detectLoop_cons (adj : List (String × List String)) (fuel : Nat)
    (k : String) (ks v s : List String) :
    detectLoop adj fuel (k :: ks) v s =
      if k ∈ v then detectLoop adj fuel ks v s
      else
        match hasCycleFrom adj fuel k v s with
        | (true, _, _) => true
        | (false, v', s') => detectLoop adj fuel ks v' s' := rfl

/-- An edge's source is a key of the adjacency map. -/
theorem key_of_edge (adj : List (String × List String)) (x y : String)
    (h : AEdge adj x y) : x ∈ adj.map Prod.fst := by
  unfold AEdge adjGetD mapGetD mapGet? at h
  cases hf : List.find? (fun q => q.1 == x) adj with
  | none => rw [hf] at h; simp at h
  | some p =>
      have hp := List.mem_of_find?_eq_some hf
      have hpk : p.1 = x := by simpa using List.find?_some hf
      rw [← hpk]
      exact List.mem_map_of_mem Prod.fst hp

/-- A true outer loop exhibits a directed cycle. -/
theorem detectLoop_sound (adj : List (String × List String)) :
    ∀ ks v, detectLoop adj (dfsFuel adj) ks v [] = true →
      ∃ x, Relation.TransGen (AEdge adj) x x := by
  intro ks
  induction ks with
  | nil => intro v h; rw [detectLoop_nil] at h; simp at h
  | cons k ks ih =>
      intro v h
      rw [detectLoop_cons] at h
      by_cases hk : k ∈ v
      · rw [if_pos hk] at h; exact ih v h
      · rw [if_neg hk] at h
        rcases hcall : hasCycleFrom adj (dfsFuel adj) k v [] with ⟨b, v1, s1⟩
        rw [hcall] at h
        cases b
        · have hs1 : s1 = [] := by
            have := dfs_stack adj (dfsFuel adj) (adjGetD adj k) k (k :: v)
              [k] v1 s1 hcall
            rw [List.erase_cons_head] at this
            exact this
          rw [hs1] at h
          exact ih v1 h
        · refine dfs_sound adj (dfsFuel adj) (adjGetD adj k) k (k :: v) [k]
            (fun y hy => hy) (fun y hy => mem_dfsU_of_target adj k y hy)
            (List.chain'_singleton k) rfl ?_
            (by unfold hasCycleFrom at hcall; rw [hcall])
          have h1 := adjGetD_length_le adj k
          have h2 := potSum_le adj (k :: v)
          unfold dfsFuel
          omega

/-- A false outer loop yields a topological order covering all scanned keys. -/
theorem detectLoop_complete (adj : List (String × List String)) (fuel : Nat) :
    ∀ ks v φ,
      v.Nodup → φ.Nodup → TopoOK adj φ → (∀ x, x ∈ φ ↔ x ∈ v) →
      detectLoop adj fuel ks v [] = false →
      ∃ φ', (∃ δ, φ' = φ ++ δ) ∧ φ'.Nodup ∧ TopoOK adj φ' ∧
        (∀ k ∈ ks, k ∈ φ') := by
  intro ks
  induction ks with
  | nil =>
      intro v φ _ hφnd htopo _ _
      exact ⟨φ, ⟨[], (List.append_nil φ).symm⟩, hφnd, htopo, by simp⟩
  | cons k ks ih =>
      intro v φ hvnd hφnd htopo hchar heq
      rw [detectLoop_cons] at heq
      by_cases hk : k ∈ v
      · rw [if_pos hk] at heq
        obtain ⟨φ', hext, hnd, htp, hks⟩ := ih v φ hvnd hφnd htopo hchar heq
        refine ⟨φ', hext, hnd, htp, ?_⟩
        intro x hx
        rcases List.mem_cons.mp hx with h1 | h1
        · obtain ⟨δ, hδ⟩ := hext
          rw [hδ, h1]
          exact List.mem_append_left δ ((hchar k).mpr hk)
        · exact hks x h1
      · rw [if_neg hk] at heq
        rcases hcall : hasCycleFrom adj fuel k v [] with ⟨b, v1, s1⟩
        rw [hcall] at heq
        cases b
        · unfold hasCycleFrom at hcall
          obtain ⟨hcs, hcmono, hcvnd, φ1, ⟨δ1, hφ1⟩, hφ1nd, hφ1topo, hφ1char⟩ :=
            dfs_complete_inv adj fuel (adjGetD adj k) k (k :: v) [k] [] φ v1 s1
              (by simp) (by simp) (List.nodup_singleton k) ⟨[], rfl⟩
              (by
                intro x hx
                have : x = k := by simpa using hx
                rw [this]
                exact List.mem_cons_self k v)
              (List.nodup_cons.mpr ⟨hk, hvnd⟩)
              (by
                intro x
                constructor
                · intro hx
                  have hxv := (hchar x).mp hx
                  have hxk : x ≠ k := fun he => hk (he ▸ hxv)
                  exact ⟨List.mem_cons_of_mem k hxv, by simp [hxk]⟩
                · intro ⟨hxkv, hxk⟩
                  have hxk' : x ≠ k := by simpa using hxk
                  refine (hchar x).mpr ?_
                  rcases List.mem_cons.mp hxkv with h1 | h1
                  · exact absurd h1 hxk'
                  · exact h1)
              hφnd htopo hcall
          have hs1nil : s1 = [] := by rw [hcs, List.erase_cons_head]
          rw [hs1nil] at heq
          have hφ1v1 : ∀ x, x ∈ φ1 ↔ x ∈ v1 := by
            intro x
            rw [hφ1char x, hs1nil]
            simp
          obtain ⟨φ2, ⟨δ2, hφ2⟩, hφ2nd, hφ2topo, hks⟩ :=
            ih v1 φ1 hcvnd hφ1nd hφ1topo hφ1v1 heq
          refine ⟨φ2, ⟨δ1 ++ δ2, by rw [hφ2, hφ1, List.append_assoc]⟩, hφ2nd,
            hφ2topo, ?_⟩
          intro x hx
          rcases List.mem_cons.mp hx with h1 | h1
          · rw [hφ2, h1]
            refine List.mem_append_left δ2 ?_
            exact (hφ1v1 k).mpr (hcmono k (List.mem_cons_self k v))
          · exact hks x h1
        · simp at heq

/-- DFS cycle detection is correct for the realised adjacency edges. -/
theorem detect_adj_iff (w : WorkflowConfig) :
    detectWorkflowCycles w = true ↔
      ∃ x, Relation.TransGen (AEdge (buildAdj w)) x x := by
  have hdef : detectWorkflowCycles w =
      detectLoop (buildAdj w) (dfsFuel (buildAdj w))
        ((buildAdj w).map (fun p => p.1)) [] [] := rfl
  constructor
  · intro h
    rw [hdef] at h
    exact detectLoop_sound (buildAdj w) _ [] h
  · intro hcyc
    by_contra hfalse
    have hf : detectWorkflowCycles w = false := by
      cases hv : detectWorkflowCycles w with
      | true => exact absurd hv hfalse
      | false => rfl
    rw [hdef] at hf
    obtain ⟨φ', _, _, htopo, hkeys⟩ :=
      detectLoop_complete (buildAdj w) (dfsFuel (buildAdj w))
        ((buildAdj w).map (fun p => p.1)) [] [] (List.nodup_nil)
        (List.nodup_nil) (by intro x hx _ _; simp at hx) (by simp) hf
    obtain ⟨x, hx⟩ := hcyc
    have hxkey : x ∈ (buildAdj w).map Prod.fst := by
      obtain ⟨y, hxy, _⟩ := (Relation.TransGen.head'_iff).mp hx
      exact key_of_edge (buildAdj w) x y hxy
    have hxφ : x ∈ φ' := hkeys x (by simpa using hxkey)
    exact topoOK_no_cycle (buildAdj w) φ' htopo x hxφ hx


/-! ## Characterisation of the built adjacency map -/

theorem hasKey_iff_isSome {α : Type} (m : List (String × α)) (k : String) :
    hasKey m k = true ↔ (mapGet? m k).isSome = true := by
  unfold hasKey mapGet?
  rw [List.any_eq_true, Option.isSome_map']
  rw [List.find?_isSome]

theorem mem_setAdd (l : List String) (z y : String) :
    y ∈ setAdd l z ↔ y ∈ l ∨ y = z := by
  unfold setAdd
  by_cases hz : z ∈ l
  · rw [if_pos hz]
    constructor
    · exact Or.inl
    · intro h
      rcases h with h | h
      · exact h
      · rw [h]; exact hz
  · rw [if_neg hz]
    simp

theorem setAddFold_mem (cs : List WorkflowConnection) :
    ∀ (v0 : List String) (y : String),
      y ∈ cs.foldl (fun l c => setAdd l c.targetId) v0 ↔
        y ∈ v0 ∨ ∃ c ∈ cs, c.targetId = y := by
  induction cs with
  | nil => intro v0 y; simp
  | cons c t ih =>
      intro v0 y
      rw [List.foldl_cons, ih (setAdd v0 c.targetId) y, mem_setAdd]
      constructor
      · intro h
        rcases h with (h | h) | h
        · exact Or.inl h
        · exact Or.inr ⟨c, List.mem_cons_self c t, h.symm⟩
        · obtain ⟨c', hc', he⟩ := h
          exact Or.inr ⟨c', List.mem_cons_of_mem c hc', he⟩
      · intro h
        rcases h with h | ⟨c', hc', he⟩
        · exact Or.inl (Or.inl h)
        · rcases List.mem_cons.mp hc' with h1 | h1
          · exact Or.inl (Or.inr (by rw [← h1]; exact he.symm))
          · exact Or.inr ⟨c', h1, he⟩

theorem nodesFold_lookup (l : List WorkflowNode) :
    ∀ (m : List (String × List String)) (x : String),
      mapGet? (l.foldl (fun m n => mapSet m n.id ([] : List String)) m) x =
        if ∃ n ∈ l, n.id = x then some [] else mapGet? m x := by
  induction l with
  | nil => intro m x; simp
  | cons n t ih =>
      intro m x
      rw [List.foldl_cons, ih (mapSet m n.id []) x]
      by_cases hnx : n.id = x
      · have hcons : ∃ n' ∈ n :: t, n'.id = x :=
          ⟨n, List.mem_cons_self n t, hnx⟩
        by_cases hex : ∃ n' ∈ t, n'.id = x
        · rw [if_pos hex, if_pos hcons]
        · rw [if_neg hex, if_pos hcons, hnx, mapGet?_mapSet_self]
      · have hcond : (∃ n' ∈ n :: t, n'.id = x) ↔ (∃ n' ∈ t, n'.id = x) := by
          constructor
          · intro ⟨n', hn', he⟩
            rcases List.mem_cons.mp hn' with h1 | h1
            · exact absurd (h1 ▸ he) hnx
            · exact ⟨n', h1, he⟩
          · intro ⟨n', hn', he⟩
            exact ⟨n', List.mem_cons_of_mem n hn', he⟩
        by_cases hex : ∃ n' ∈ t, n'.id = x
        · rw [if_pos hex, if_pos (hcond.mpr hex)]
        · rw [if_neg hex, if_neg (fun hc => hex (hcond.mp hc)),
            mapGet?_mapSet_ne m n.id x [] (fun he => hnx he.symm)]

theorem connsFold_lookup (cs : List WorkflowConnection) :
    ∀ (m : List (String × List String)) (x : String),
      mapGet? (cs.foldl (fun m c =>
        if hasKey m c.sourceId then
          mapSet m c.sourceId (setAdd (mapGetD m c.sourceId []) c.targetId)
        else m) m) x =
        (mapGet? m x).map (fun v0 =>
          (cs.filter (fun c => c.sourceId == x)).foldl
            (fun l c => setAdd l c.targetId) v0) := by
  induction cs with
  | nil =>
      intro m x
      rw [List.foldl_nil]
      cases h : mapGet? m x with
      | none => rfl
      | some v0 => rfl
  | cons c t ih =>
      intro m x
      rw [List.foldl_cons, List.filter_cons]
      by_cases hcx : c.sourceId = x
      · have hbeq : (c.sourceId == x) = true := by simp [hcx]
        rw [if_pos hbeq]
        by_cases hk : hasKey m c.sourceId = true
        · rw [if_pos hk, ih _ x]
          cases hmx : mapGet? m x with
          | none =>
              rw [hcx] at hk
              rw [hasKey_iff_isSome, hmx] at hk
              simp at hk
          | some v0 =>
              have hset : mapGet? (mapSet m c.sourceId
                  (setAdd (mapGetD m c.sourceId []) c.targetId)) x =
                  some (setAdd v0 c.targetId) := by
                rw [hcx, mapGet?_mapSet_self]
                unfold mapGetD
                rw [hmx]
                rfl
              rw [hset]
              simp [List.foldl_cons]
        · rw [if_neg hk, ih m x]
          rw [hcx] at hk
          have hmx : mapGet? m x = Option.none := by
            cases hv : mapGet? m x with
            | none => rfl
            | some v0 =>
                rw [hasKey_iff_isSome, hv] at hk
                simp at hk
          rw [hmx]
          rfl
      · have hbeq : ¬ (c.sourceId == x) = true := by simp [hcx]
        rw [if_neg hbeq]
        by_cases hk : hasKey m c.sourceId = true
        · rw [if_pos hk, ih _ x,
            mapGet?_mapSet_ne m c.sourceId x _ (fun he => hcx he.symm)]
        · rw [if_neg hk, ih m x]

/-- The realised adjacency edge relation coincides with the workflow edge
relation. -/
theorem aedge_iff_edgeW (w : WorkflowConfig) (x y : String) :
    AEdge (buildAdj w) x y ↔ EdgeW w x y := by
  unfold AEdge adjGetD mapGetD buildAdj EdgeW
  rw [connsFold_lookup w.connections _ x, nodesFold_lookup w.nodes [] x]
  have hmemids : (∃ n ∈ w.nodes, n.id = x) ↔ x ∈ nodeIds w := by
    unfold nodeIds
    rw [List.mem_map]
  by_cases hx : ∃ n ∈ w.nodes, n.id = x
  · rw [if_pos hx]
    simp only [Option.map_some', Option.getD_some]
    rw [setAddFold_mem]
    constructor
    · intro h
      rcases h with h | h
      · simp at h
      · obtain ⟨c, hc, he⟩ := h
        rw [List.mem_filter] at hc
        exact ⟨hmemids.mp hx, c, hc.1, by simpa using hc.2, he⟩
    · intro ⟨_, c, hc, hsrc, htgt⟩
      right
      exact ⟨c, List.mem_filter.mpr ⟨hc, by simp [hsrc]⟩, htgt⟩
  · rw [if_neg hx]
    simp only [mapGet?, List.find?_nil, Option.map_none', Option.getD_none]
    constructor
    · intro h; simp at h
    · intro ⟨hxid, _⟩
      exact absurd (hmemids.mpr hxid) hx

/-! ## Kahn's algorithm: correctness of `getWorkflowTopologicalOrder`

The development characterises the in-degree map (`buildInDeg`), the initial
queue, and one decrement pass (`kahnStep`), then proves by induction on the
fuel that the while-loop of `getWorkflowTopologicalOrder` emits every node in
a topological order whenever the graph is well-formed (node ids pairwise
distinct, connection endpoints resolving to nodes, no duplicated parallel
connection) and acyclic.  A stuck state of the loop is shown to contain a
cycle by iterated predecessor choice and the pigeonhole principle. -/

theorem hasKey_iff_mem_keys {α : Type} (m : List (String × α)) (k : String) :
    hasKey m k = true ↔ k ∈ m.map Prod.fst := by
  unfold hasKey
  rw [List.any_eq_true]
  constructor
  · intro ⟨p, hp, hbeq⟩
    exact List.mem_map.mpr ⟨p, hp, by simpa using hbeq⟩
  · intro h
    obtain ⟨p, hp, he⟩ := List.mem_map.mp h
    exact ⟨p, hp, by simp [he]⟩

theorem mapSet_keys_of_hasKey {α : Type} (m : List (String × α)) (k : String)
    (v : α) (h : hasKey m k = true) :
    (mapSet m k v).map Prod.fst = m.map Prod.fst := by
  unfold mapSet
  rw [if_pos h, List.map_map]
  apply List.map_congr_left
  intro p _
  simp only [Function.comp_apply]
  by_cases hp : (p.1 == k) = true
  · rw [if_pos hp]
    have he : p.1 = k := by simpa using hp
    simp [he]
  · rw [if_neg hp]

theorem mapSet_keys_of_not_hasKey {α : Type} (m : List (String × α))
    (k : String) (v : α) (h : ¬ hasKey m k = true) :
    (mapSet m k v).map Prod.fst = m.map Prod.fst ++ [k] := by
  unfold mapSet
  rw [if_neg h, List.map_append]
  rfl

/-- Folding fresh zero-entries over pairwise-distinct node ids appends exactly
those ids to the key list. -/
theorem nodesFoldZ_keys (l : List WorkflowNode) :
    ∀ (m : List (String × ℤ)),
      (∀ n ∈ l, hasKey m n.id = false) →
      (l.map (fun n => n.id)).Nodup →
      (l.foldl (fun m n => mapSet m n.id (0 : ℤ)) m).map Prod.fst =
        m.map Prod.fst ++ l.map (fun n => n.id) := by
  induction l with
  | nil => intro m _ _; simp
  | cons n t ih =>
      intro m hfresh hnd
      rw [List.foldl_cons, List.map_cons]
      have hnd' : n.id ∉ t.map (fun n => n.id) ∧
          (t.map (fun n => n.id)).Nodup := by
        rw [List.map_cons, List.nodup_cons] at hnd
        exact hnd
      have hkn : ¬ hasKey m n.id = true := by
        rw [hfresh n (List.mem_cons_self n t)]; simp
      have hkeys := mapSet_keys_of_not_hasKey m n.id 0 hkn
      have hfresh' : ∀ n' ∈ t, hasKey (mapSet m n.id 0) n'.id = false := by
        intro n' hn'
        have h1 : n'.id ∉ (mapSet m n.id 0).map Prod.fst := by
          rw [hkeys]
          intro hmem
          rcases List.mem_append.mp hmem with h2 | h2
          · have h3 : hasKey m n'.id = true :=
              (hasKey_iff_mem_keys m n'.id).mpr h2
            rw [hfresh n' (List.mem_cons_of_mem n hn')] at h3
            exact absurd h3 (by simp)
          · have h3 : n'.id = n.id := by simpa using h2
            exact hnd'.1 (List.mem_map.mpr ⟨n', hn', h3⟩)
        cases hk : hasKey (mapSet m n.id 0) n'.id with
        | false => rfl
        | true => exact absurd ((hasKey_iff_mem_keys _ _).mp hk) h1
      rw [ih (mapSet m n.id 0) hfresh' hnd'.2, hkeys]
      simp

/-- The in-degree increment pass creates no new keys when every target is
already a key. -/
theorem connsFoldDeg_keys (cs : List WorkflowConnection) :
    ∀ (m : List (String × ℤ)),
      (∀ c ∈ cs, c.targetId ∈ m.map Prod.fst) →
      (cs.foldl (fun m c => mapSet m c.targetId (mapGetD m c.targetId 0 + 1))
        m).map Prod.fst = m.map Prod.fst := by
  induction cs with
  | nil => intro m _; simp
  | cons c t ih =>
      intro m htgt
      rw [List.foldl_cons]
      have hk : hasKey m c.targetId = true :=
        (hasKey_iff_mem_keys _ _).mpr (htgt c (List.mem_cons_self c t))
      have hkeys :=
        mapSet_keys_of_hasKey m c.targetId (mapGetD m c.targetId 0 + 1) hk
      rw [ih _ (fun c' hc' => by
        rw [hkeys]; exact htgt c' (List.mem_cons_of_mem c hc')), hkeys]

/-- Under unique node ids and resolvable targets, the keys of the in-degree
map are exactly the node ids, in order. -/
theorem buildInDeg_keys (w : WorkflowConfig)
    (H1 : (nodeIds w).Nodup)
    (H2t : ∀ c ∈ w.connections, c.targetId ∈ nodeIds w) :
    (buildInDeg w).map Prod.fst = nodeIds w := by
  unfold nodeIds at H1 H2t ⊢
  unfold buildInDeg
  have hm0 : ((w.nodes.foldl (fun m n => mapSet m n.id (0 : ℤ)) []).map
      Prod.fst) = w.nodes.map (fun n => n.id) := by
    have h := nodesFoldZ_keys w.nodes [] (fun n _ => rfl) H1
    simpa using h
  rw [connsFoldDeg_keys w.connections _
    (fun c hc => by rw [hm0]; exact H2t c hc), hm0]

theorem mapGetD_mapSet_self {α : Type} (m : List (String × α)) (k : String)
    (v d : α) : mapGetD (mapSet m k v) k d = v := by
  unfold mapGetD
  rw [mapGet?_mapSet_self]
  rfl

theorem mapGetD_mapSet_ne {α : Type} (m : List (String × α)) (k k' : String)
    (v d : α) (h : k' ≠ k) : mapGetD (mapSet m k v) k' d = mapGetD m k' d := by
  unfold mapGetD
  rw [mapGet?_mapSet_ne m k k' v h]

/-- Value of the in-degree map after the increment pass: the old value plus
the number of connections targeting the key. -/
theorem connsFoldDeg_getD (cs : List WorkflowConnection) :
    ∀ (m : List (String × ℤ)) (x : String),
      mapGetD (cs.foldl (fun m c =>
        mapSet m c.targetId (mapGetD m c.targetId 0 + 1)) m) x 0 =
        mapGetD m x 0 +
          ((cs.filter (fun c => c.targetId == x)).length : ℤ) := by
  induction cs with
  | nil => intro m x; simp
  | cons c t ih =>
      intro m x
      rw [List.foldl_cons, ih _ x, List.filter_cons]
      by_cases hcx : c.targetId = x
      · have hb : (c.targetId == x) = true := by simp [hcx]
        rw [if_pos hb, hcx, mapGetD_mapSet_self, List.length_cons]
        push_cast
        ring
      · have hb : ¬ (c.targetId == x) = true := by simp [hcx]
        rw [if_neg hb, mapGetD_mapSet_ne m c.targetId x _ 0
          (fun he => hcx he.symm)]

theorem nodesFoldZ_getD (l : List WorkflowNode) :
    ∀ (m : List (String × ℤ)) (x : String), mapGetD m x 0 = 0 →
      mapGetD (l.foldl (fun m n => mapSet m n.id (0 : ℤ)) m) x 0 = 0 := by
  induction l with
  | nil => intro m x h; simpa using h
  | cons n t ih =>
      intro m x h
      rw [List.foldl_cons]
      apply ih
      by_cases hnx : n.id = x
      · rw [← hnx, mapGetD_mapSet_self]
      · rw [mapGetD_mapSet_ne m n.id x _ 0 (fun he => hnx he.symm)]
        exact h

/-- The initial in-degree of any string is the number of connections that
target it. -/
theorem buildInDeg_getD (w : WorkflowConfig) (x : String) :
    mapGetD (buildInDeg w) x 0 =
      ((w.connections.filter (fun c => c.targetId == x)).length : ℤ) := by
  unfold buildInDeg
  have h0 := nodesFoldZ_getD w.nodes [] x rfl
  rw [connsFoldDeg_getD w.connections _ x, h0]
  ring

/-- With pairwise-distinct keys, a listed binding is what lookup returns. -/
theorem mapGet?_of_mem_of_nodupKeys {α : Type} (m : List (String × α))
    (hnd : (m.map Prod.fst).Nodup) (k : String) (a : α)
    (h : (k, a) ∈ m) : mapGet? m k = some a := by
  induction m with
  | nil => simp at h
  | cons p t ih =>
      rw [List.map_cons, List.nodup_cons] at hnd
      rcases List.mem_cons.mp h with h1 | h1
      · rw [← h1]
        unfold mapGet?
        have hf : List.find? (fun q => q.1 == k) ((k, a) :: t) =
            some (k, a) := List.find?_cons_of_pos _ (by simp)
        rw [hf]
        rfl
      · have hne : ¬ (p.1 == k) = true := by
          intro hb
          have he : p.1 = k := by simpa using hb
          have hk : k ∈ t.map Prod.fst := List.mem_map.mpr ⟨(k, a), h1, rfl⟩
          rw [← he] at hk
          exact hnd.1 hk
        unfold mapGet? at ih ⊢
        have hf : List.find? (fun q => q.1 == k) (p :: t) =
            List.find? (fun q => q.1 == k) t := List.find?_cons_of_neg _ hne
        rw [hf]
        exact ih hnd.2 h1

/-- Membership in the zero-degree seed queue, for a map with distinct keys. -/
theorem filterZero_mem (m : List (String × ℤ))
    (hnd : (m.map Prod.fst).Nodup) (x : String) :
    x ∈ (m.filter (fun p => p.2 == 0)).map Prod.fst ↔
      x ∈ m.map Prod.fst ∧ mapGetD m x 0 = 0 := by
  constructor
  · intro h
    obtain ⟨p, hp, he⟩ := List.mem_map.mp h
    rw [List.mem_filter] at hp
    have h0 : p.2 = 0 := by simpa using hp.2
    refine ⟨List.mem_map.mpr ⟨p, hp.1, he⟩, ?_⟩
    have hg := mapGet?_of_mem_of_nodupKeys m hnd p.1 p.2 hp.1
    unfold mapGetD
    rw [← he, hg, h0]
    rfl
  · intro ⟨hmem, h0⟩
    obtain ⟨p, hp, he⟩ := List.mem_map.mp hmem
    have hg := mapGet?_of_mem_of_nodupKeys m hnd p.1 p.2 hp
    rw [he] at hg
    have h2 : p.2 = 0 := by
      unfold mapGetD at h0
      rw [hg] at h0
      simpa using h0
    exact List.mem_map.mpr ⟨p, List.mem_filter.mpr ⟨hp, by simp [h2]⟩, he⟩

theorem setAdd_nodup (l : List String) (x : String) (h : l.Nodup) :
    (setAdd l x).Nodup := by
  unfold setAdd
  by_cases hm : x ∈ l
  · rw [if_pos hm]; exact h
  · rw [if_neg hm]
    rw [List.nodup_append]
    refine ⟨h, List.nodup_singleton x, ?_⟩
    intro a ha hb
    have hax : a = x := by simpa using hb
    exact hm (hax ▸ ha)

theorem setAddFold_nodup (cs : List WorkflowConnection) :
    ∀ (v0 : List String), v0.Nodup →
      (cs.foldl (fun l c => setAdd l c.targetId) v0).Nodup := by
  induction cs with
  | nil => intro v0 h; simpa using h
  | cons c t ih =>
      intro v0 h
      rw [List.foldl_cons]
      exact ih _ (setAdd_nodup v0 c.targetId h)

/-- Adjacency sets built by `buildAdj` never repeat a neighbour (they embed a
JS `Set`). -/
theorem adjGetD_nodup (w : WorkflowConfig) (x : String) :
    (adjGetD (buildAdj w) x).Nodup := by
  unfold adjGetD mapGetD buildAdj
  rw [connsFold_lookup w.connections _ x, nodesFold_lookup w.nodes [] x]
  by_cases hx : ∃ n ∈ w.nodes, n.id = x
  · rw [if_pos hx]
    simp only [Option.map_some', Option.getD_some]
    exact setAddFold_nodup _ [] List.nodup_nil
  · rw [if_neg hx]
    simp only [mapGet?, List.find?_nil, Option.map_none', Option.getD_none]
    exact List.nodup_nil

/-- One neighbour decrement of `kahnStep`, named so the fold can be reasoned
about. -/
def degStep (acc : List String × List (String × ℤ)) (m : String) :
    List String × List (String × ℤ) :=
  (if mapGetD acc.2 m 0 - 1 == 0 then acc.1 ++ [m] else acc.1,
   mapSet acc.2 m (mapGetD acc.2 m 0 - 1))

theorem kahnStep_eq (adj : List (String × List String)) (n : String)
    (q : List String) (d : List (String × ℤ)) :
    kahnStep adj n q d = (adjGetD adj n).foldl degStep (q, d) := rfl

/-- Pointwise effect of one decrement pass on the degree map: each distinct
neighbour loses exactly one. -/
theorem degFold_deg (ns : List String) :
    ns.Nodup → ∀ (q : List String) (d : List (String × ℤ)) (x : String),
      mapGetD (ns.foldl degStep (q, d)).2 x 0 =
        mapGetD d x 0 - (if x ∈ ns then 1 else 0) := by
  induction ns with
  | nil => intro _ q d x; simp
  | cons m rest ih =>
      intro hnd q d x
      have hnd' := List.nodup_cons.mp hnd
      rw [List.foldl_cons]
      have hstep : rest.foldl degStep (degStep (q, d) m) =
          rest.foldl degStep ((degStep (q, d) m).1, (degStep (q, d) m).2) := rfl
      rw [hstep, ih hnd'.2 _ _ x]
      have hd2 : mapGetD (degStep (q, d) m).2 x 0 =
          mapGetD d x 0 - (if x = m then 1 else 0) := by
        show mapGetD (mapSet d m (mapGetD d m 0 - 1)) x 0 = _
        by_cases hxm : x = m
        · rw [if_pos hxm, hxm, mapGetD_mapSet_self]
        · rw [if_neg hxm, mapGetD_mapSet_ne d m x _ 0 hxm]
          omega
      rw [hd2]
      by_cases hxm : x = m
      · have hxr : x ∉ rest := fun hc => hnd'.1 (hxm ▸ hc)
        rw [if_pos hxm, if_neg hxr,
          if_pos (by rw [hxm]; exact List.mem_cons_self m rest)]
        omega
      · by_cases hxr : x ∈ rest
        · rw [if_neg hxm, if_pos hxr, if_pos (List.mem_cons_of_mem m hxr)]
          omega
        · rw [if_neg hxm, if_neg hxr,
            if_neg (fun hc => (List.mem_cons.mp hc).elim hxm hxr)]
          omega

/-- Queue effect of one decrement pass: exactly the distinct neighbours whose
degree was 1 are appended, in adjacency order. -/
theorem degFold_queue (ns : List String) :
    ns.Nodup → ∀ (q : List String) (d : List (String × ℤ)),
      (ns.foldl degStep (q, d)).1 =
        q ++ ns.filter (fun m => mapGetD d m 0 == 1) := by
  induction ns with
  | nil => intro _ q d; simp
  | cons m rest ih =>
      intro hnd q d
      have hnd' := List.nodup_cons.mp hnd
      rw [List.foldl_cons]
      simp only [List.filter_cons]
      have hstep : rest.foldl degStep (degStep (q, d) m) =
          rest.foldl degStep ((degStep (q, d) m).1, (degStep (q, d) m).2) := rfl
      rw [hstep, ih hnd'.2 _ _]
      have hfc : rest.filter
          (fun y => mapGetD ((degStep (q, d) m).2) y 0 == 1) =
          rest.filter (fun y => mapGetD d y 0 == 1) := by
        apply List.filter_congr
        intro y hy
        have hym : y ≠ m := fun he => hnd'.1 (he ▸ hy)
        show (mapGetD (mapSet d m (mapGetD d m 0 - 1)) y 0 == 1) = _
        rw [mapGetD_mapSet_ne d m y _ 0 hym]
      rw [hfc]
      by_cases hg : mapGetD d m 0 = 1
      · have hb1 : ((degStep (q, d) m).1) = q ++ [m] := by
          show (if mapGetD d m 0 - 1 == 0 then q ++ [m] else q) = q ++ [m]
          rw [if_pos (by simp [hg])]
        have hb2 : (mapGetD d m 0 == 1) = true := by simp [hg]
        rw [hb1, if_pos hb2]
        simp
      · have hb1 : ((degStep (q, d) m).1) = q := by
          show (if mapGetD d m 0 - 1 == 0 then q ++ [m] else q) = q
          rw [if_neg (by simp; omega)]
        have hb2 : ¬ (mapGetD d m 0 == 1) = true := by simp [hg]
        rw [hb1, if_neg hb2]

theorem kahnLoop_nil (adj : List (String × List String)) (fuel : Nat)
    (result : List String) (deg : List (String × ℤ)) :
    kahnLoop adj fuel [] result deg = result := by
  cases fuel <;> rfl

theorem kahnLoop_succ (adj : List (String × List String)) (fuel : Nat)
    (n : String) (queue result : List String) (deg : List (String × ℤ)) :
    kahnLoop adj (fuel + 1) (n :: queue) result deg =
      kahnLoop adj fuel (kahnStep adj n queue deg).1 (result ++ [n])
        (kahnStep adj n queue deg).2 := by
  show (match kahnStep adj n queue deg with
    | (queue', deg') => kahnLoop adj fuel queue' (result ++ [n]) deg') = _
  rcases hks : kahnStep adj n queue deg with ⟨q', d'⟩
  rfl

theorem length_filter_cons {α : Type} (p : α → Bool) (c : α) (t : List α) :
    ((c :: t).filter p).length =
      (if p c = true then 1 else 0) + (t.filter p).length := by
  rw [List.filter_cons]
  by_cases h : p c = true
  · rw [if_pos h, if_pos h, List.length_cons]
    omega
  · rw [if_neg h, if_neg h]
    omega

/-- Splitting the unprocessed-in-degree count by whether the source is the
newly finished node `n`. -/
theorem filter_split_source (cs : List WorkflowConnection) (x n : String)
    (result : List String) (hnr : n ∉ result) :
    (cs.filter (fun c => c.targetId == x &&
        decide (c.sourceId ∉ result))).length =
      (cs.filter (fun c => c.targetId == x &&
        decide (c.sourceId ∉ result ++ [n]))).length +
      (cs.filter (fun c => c.sourceId == n && c.targetId == x)).length := by
  induction cs with
  | nil => rfl
  | cons c t ih =>
      simp only [length_filter_cons]
      have helem : (if (c.targetId == x && decide (c.sourceId ∉ result)) = true
            then 1 else 0) =
          (if (c.targetId == x &&
              decide (c.sourceId ∉ result ++ [n])) = true then 1 else 0) +
          (if (c.sourceId == n && c.targetId == x) = true then 1 else 0) := by
        by_cases ht : c.targetId = x
        · by_cases hs2 : c.sourceId = n
          · have hs1 : c.sourceId ∉ result := fun hc => hnr (hs2 ▸ hc)
            simp [ht, hs1, hs2, hnr, List.mem_append]
          · by_cases hs1 : c.sourceId ∈ result
            · simp [ht, hs1, hs2, List.mem_append]
            · simp [ht, hs1, hs2, List.mem_append]
        · simp [ht]
      omega

/-- A duplicate-free list counts every element at most once (stated for any
lawful `BEq`, so it applies to pairs of strings). -/
theorem count_le_one_of_nodup {α : Type} [BEq α] [LawfulBEq α] (l : List α)
    (h : l.Nodup) (a : α) : l.count a ≤ 1 := by
  induction l with
  | nil => simp
  | cons b t ih =>
      rw [List.count_cons]
      have h' := List.nodup_cons.mp h
      by_cases hba : b = a
      · have h0 : t.count a = 0 := by
          rw [List.count_eq_zero]
          exact fun hc => h'.1 (hba.symm ▸ hc)
        rw [h0, if_pos (by simp [hba])]
      · rw [if_neg (by simp [hba])]
        have := ih h'.2
        omega

/-- Without duplicated parallel connections, at most one connection realises a
given (source, target) pair. -/
theorem edge_filter_length_le_one (cs : List WorkflowConnection)
    (H3 : (cs.map (fun c => (c.sourceId, c.targetId))).Nodup) (n x : String) :
    (cs.filter (fun c => c.sourceId == n && c.targetId == x)).length ≤ 1 := by
  have hcount : (cs.filter (fun c =>
      c.sourceId == n && c.targetId == x)).length =
      (cs.map (fun c => (c.sourceId, c.targetId))).count (n, x) := by
    rw [← List.countP_eq_length_filter, List.count_eq_countP, List.countP_map]
    apply List.countP_congr
    intro c _
    simp [Function.comp, Prod.ext_iff]
  rw [hcount]
  exact count_le_one_of_nodup _ H3 (n, x)

/-- An edge of the workflow graph is realised by exactly one connection when
parallel duplicates are excluded. -/
theorem edge_count_one (w : WorkflowConfig)
    (H3 : (w.connections.map (fun c => (c.sourceId, c.targetId))).Nodup)
    (n x : String) (h : EdgeW w n x) :
    (w.connections.filter
      (fun c => c.sourceId == n && c.targetId == x)).length = 1 := by
  obtain ⟨_, c, hc, hs, ht⟩ := h
  have hmem : c ∈ w.connections.filter
      (fun c => c.sourceId == n && c.targetId == x) :=
    List.mem_filter.mpr ⟨hc, by simp [hs, ht]⟩
  have h1 := List.length_pos_of_mem hmem
  have h2 := edge_filter_length_le_one w.connections H3 n x
  omega

/-- A non-edge out of a node is realised by no connection at all. -/
theorem edge_count_zero (w : WorkflowConfig) (n x : String)
    (hn : n ∈ nodeIds w) (h : ¬ EdgeW w n x) :
    w.connections.filter
      (fun c => c.sourceId == n && c.targetId == x) = [] := by
  rw [List.filter_eq_nil_iff]
  intro c hc hb
  simp at hb
  exact h ⟨hn, c, hc, hb.1, hb.2⟩

/-- In a nonempty finite set in which every element has an `R`-predecessor
inside the set, `R` admits a cycle: iterate predecessor choice and apply the
pigeonhole principle. -/
theorem cycle_of_preds (R : String → String → Prop) (S : List String)
    (hne : S ≠ []) (h : ∀ x ∈ S, ∃ y, y ∈ S ∧ R y x) :
    ∃ x, Relation.TransGen R x x := by
  let F : ℕ → {x : String // x ∈ S} := fun n =>
    Nat.rec ⟨S.head hne, List.head_mem hne⟩
      (fun _ prev => ⟨Classical.choose (h prev.1 prev.2),
        (Classical.choose_spec (h prev.1 prev.2)).1⟩) n
  have hstep : ∀ k, R ((F (k + 1)).1) ((F k).1) := fun k =>
    (Classical.choose_spec (h (F k).1 (F k).2)).2
  have hpath : ∀ i d, Relation.TransGen R ((F (i + d + 1)).1) ((F i).1) := by
    intro i d
    induction d with
    | zero => exact Relation.TransGen.single (hstep i)
    | succ d ih => exact Relation.TransGen.head (hstep (i + d + 1)) ih
  have hcard : S.toFinset.card < (Finset.range (S.toFinset.card + 1)).card := by
    rw [Finset.card_range]
    omega
  have hmaps : ∀ i ∈ Finset.range (S.toFinset.card + 1),
      (F i).1 ∈ S.toFinset := fun i _ => List.mem_toFinset.mpr (F i).2
  obtain ⟨i, hi, j, hj, hij, heq⟩ :=
    Finset.exists_ne_map_eq_of_card_lt_of_maps_to hcard hmaps
  have heq' : (F i).1 = (F j).1 := heq
  rcases Nat.lt_or_ge i j with hlt | hge
  · obtain ⟨d, hd⟩ : ∃ d, j = i + d + 1 := ⟨j - i - 1, by omega⟩
    have hp := hpath i d
    rw [← hd] at hp
    rw [← heq'] at hp
    exact ⟨(F i).1, hp⟩
  · have hlt : j < i := by omega
    obtain ⟨d, hd⟩ : ∃ d, i = j + d + 1 := ⟨i - j - 1, by omega⟩
    have hp := hpath j d
    rw [← hd] at hp
    rw [heq'] at hp
    exact ⟨(F j).1, hp⟩

/-- Packaging of a finished run: a duplicate-free result sandwiched between
the node ids and closed under the ordering invariant is a topological order of
the whole graph. -/
theorem kahn_final (w : WorkflowConfig) (result : List String)
    (hndr : result.Nodup)
    (hres : ∀ x ∈ result, x ∈ nodeIds w)
    (hcov : ∀ x ∈ nodeIds w, x ∈ result)
    (hord : ∀ c ∈ w.connections, c.targetId ∈ result →
      c.sourceId ∈ result ∧ idxOf result c.sourceId < idxOf result c.targetId)
    (H2 : ∀ c ∈ w.connections,
      c.sourceId ∈ nodeIds w ∧ c.targetId ∈ nodeIds w) :
    result.Nodup ∧ (∀ x, x ∈ result ↔ x ∈ nodeIds w) ∧
      ∀ c ∈ w.connections,
        idxOf result c.sourceId < idxOf result c.targetId := by
  refine ⟨hndr, fun x => ⟨hres x, hcov x⟩, ?_⟩
  intro c hc
  exact (hord c hc (hcov c.targetId (H2 c hc).2)).2

/-- Invariant induction for the Kahn while-loop of
`getWorkflowTopologicalOrder`.  Under well-formedness (pairwise-distinct node
ids, resolvable endpoints, no duplicated parallel connection) and acyclicity,
any state satisfying the loop invariants finishes with every node emitted in a
topological order. -/
theorem kahn_inv (w : WorkflowConfig)
    (H1 : (nodeIds w).Nodup)
    (H2 : ∀ c ∈ w.connections, c.sourceId ∈ nodeIds w ∧ c.targetId ∈ nodeIds w)
    (H3 : (w.connections.map (fun c => (c.sourceId, c.targetId))).Nodup)
    (HNC : ¬ HasCycleW w) :
    ∀ (fuel : Nat) (queue result : List String) (deg : List (String × ℤ)),
      (nodeIds w).length ≤ fuel + result.length →
      result.Nodup →
      queue.Nodup →
      (∀ x ∈ queue, x ∉ result) →
      (∀ x ∈ result, x ∈ nodeIds w) →
      (∀ x ∈ queue, x ∈ nodeIds w) →
      (∀ x, mapGetD deg x 0 =
        ((w.connections.filter (fun c => c.targetId == x &&
          decide (c.sourceId ∉ result))).length : ℤ)) →
      (∀ x, x ∈ queue ↔
        x ∈ nodeIds w ∧ x ∉ result ∧ mapGetD deg x 0 = 0) →
      (∀ c ∈ w.connections, c.targetId ∈ result →
        c.sourceId ∈ result ∧
          idxOf result c.sourceId < idxOf result c.targetId) →
      ((kahnLoop (buildAdj w) fuel queue result deg).Nodup ∧
       (∀ x, x ∈ kahnLoop (buildAdj w) fuel queue result deg ↔
          x ∈ nodeIds w) ∧
       (∀ c ∈ w.connections,
         idxOf (kahnLoop (buildAdj w) fuel queue result deg) c.sourceId <
           idxOf (kahnLoop (buildAdj w) fuel queue result deg)
             c.targetId)) := by
  intro fuel
  induction fuel with
  | zero =>
      intro queue result deg hfuel hndr hndq hdisj hres hqN hdeg hqiff hord
      have hres_eq : kahnLoop (buildAdj w) 0 queue result deg = result := by
        cases queue with
        | nil => exact kahnLoop_nil _ 0 result deg
        | cons a q => rfl
      rw [hres_eq]
      have hcov : ∀ x ∈ nodeIds w, x ∈ result := by
        have hsub : result.toFinset ⊆ (nodeIds w).toFinset := by
          intro a ha
          exact List.mem_toFinset.mpr (hres a (List.mem_toFinset.mp ha))
        have heq : result.toFinset = (nodeIds w).toFinset :=
          Finset.eq_of_subset_of_card_le hsub (by
            rw [List.toFinset_card_of_nodup hndr,
              List.toFinset_card_of_nodup H1]
            omega)
        intro x hx
        have hx' := List.mem_toFinset.mpr hx
        rw [← heq] at hx'
        exact List.mem_toFinset.mp hx'
      exact kahn_final w result hndr hres hcov hord H2
  | succ fuel ih =>
      intro queue result deg hfuel hndr hndq hdisj hres hqN hdeg hqiff hord
      cases queue with
      | nil =>
          rw [kahnLoop_nil]
          by_cases hcov : ∀ x ∈ nodeIds w, x ∈ result
          · exact kahn_final w result hndr hres hcov hord H2
          · exfalso
            push_neg at hcov
            obtain ⟨n0, hn0N, hn0r⟩ := hcov
            have hpred : ∀ x ∈ (nodeIds w).filter
                (fun y => decide (y ∉ result)), ∃ y,
                y ∈ (nodeIds w).filter (fun y => decide (y ∉ result)) ∧
                  EdgeW w y x := by
              intro x hxS
              rw [List.mem_filter] at hxS
              have hxN := hxS.1
              have hxr : x ∉ result := by simpa using hxS.2
              have hdx : mapGetD deg x 0 ≠ 0 := by
                intro h0
                have hxq := (hqiff x).mpr ⟨hxN, hxr, h0⟩
                simp at hxq
              rw [hdeg x] at hdx
              have hne : w.connections.filter (fun c => c.targetId == x &&
                  decide (c.sourceId ∉ result)) ≠ [] := by
                intro hnil
                rw [hnil] at hdx
                simp at hdx
              obtain ⟨c, hcmem⟩ := List.exists_mem_of_ne_nil _ hne
              rw [List.mem_filter] at hcmem
              have hparts : c.targetId = x ∧ c.sourceId ∉ result := by
                have hb := hcmem.2
                simp at hb
                exact hb
              refine ⟨c.sourceId, List.mem_filter.mpr
                ⟨(H2 c hcmem.1).1, by simp [hparts.2]⟩, ?_⟩
              exact ⟨(H2 c hcmem.1).1, c, hcmem.1, rfl, hparts.1⟩
            have hSne : (nodeIds w).filter
                (fun y => decide (y ∉ result)) ≠ [] := by
              intro hnil
              have hn0S : n0 ∈ (nodeIds w).filter
                  (fun y => decide (y ∉ result)) :=
                List.mem_filter.mpr ⟨hn0N, by simp [hn0r]⟩
              rw [hnil] at hn0S
              simp at hn0S
            obtain ⟨z, hz⟩ := cycle_of_preds (EdgeW w) _ hSne hpred
            exact HNC ⟨z, hz⟩
      | cons n q' =>
          obtain ⟨hnN, hnr, hdn⟩ := (hqiff n).mp (List.mem_cons_self n q')
          have hndq' := List.nodup_cons.mp hndq
          have hnbrs_nd : (adjGetD (buildAdj w) n).Nodup := adjGetD_nodup w n
          have hnbr_iff : ∀ y, y ∈ adjGetD (buildAdj w) n ↔ EdgeW w n y :=
            fun y => aedge_iff_edgeW w n y
          have hq1 : (kahnStep (buildAdj w) n q' deg).1 =
              q' ++ (adjGetD (buildAdj w) n).filter
                (fun m => mapGetD deg m 0 == 1) := by
            rw [kahnStep_eq]
            exact degFold_queue _ hnbrs_nd q' deg
          have hd1 : ∀ x, mapGetD (kahnStep (buildAdj w) n q' deg).2 x 0 =
              mapGetD deg x 0 -
                (if x ∈ adjGetD (buildAdj w) n then 1 else 0) := by
            intro x
            rw [kahnStep_eq]
            exact degFold_deg _ hnbrs_nd q' deg x
          have hdn_len : (w.connections.filter (fun c => c.targetId == n &&
              decide (c.sourceId ∉ result))).length = 0 := by
            have h := hdeg n
            rw [hdn] at h
            exact_mod_cast h.symm
          have hclosed : ∀ c ∈ w.connections, c.targetId = n →
              c.sourceId ∈ result := by
            intro c hc htc
            by_contra hcs
            have hmem : c ∈ w.connections.filter (fun c => c.targetId == n &&
                decide (c.sourceId ∉ result)) :=
              List.mem_filter.mpr ⟨hc, by simp [htc, hcs]⟩
            have hpos := List.length_pos_of_mem hmem
            omega
          have hnbr_res : ∀ y ∈ adjGetD (buildAdj w) n, y ∉ result := by
            intro y hy hyr
            obtain ⟨_, c, hc, hs, ht⟩ := (hnbr_iff y).mp hy
            have h2 := hord c hc (by rw [ht]; exact hyr)
            exact hnr (hs ▸ h2.1)
          have hnn : n ∉ adjGetD (buildAdj w) n := by
            intro hn
            obtain ⟨_, c, hc, hs, ht⟩ := (hnbr_iff n).mp hn
            exact hnr (hs ▸ hclosed c hc ht)
          have hnbr_q : ∀ y ∈ adjGetD (buildAdj w) n, y ∉ q' := by
            intro y hy hyq
            have hy0 := ((hqiff y).mp (List.mem_cons_of_mem n hyq)).2.2
            obtain ⟨_, c, hc, hs, ht⟩ := (hnbr_iff y).mp hy
            have hmem : c ∈ w.connections.filter (fun c => c.targetId == y &&
                decide (c.sourceId ∉ result)) :=
              List.mem_filter.mpr ⟨hc, by simp [ht, hs, hnr]⟩
            have hpos := List.length_pos_of_mem hmem
            have h := hdeg y
            rw [hy0] at h
            have h0 : (w.connections.filter (fun c => c.targetId == y &&
                decide (c.sourceId ∉ result))).length = 0 := by
              exact_mod_cast h.symm
            omega
          have hnbrN : ∀ y ∈ adjGetD (buildAdj w) n, y ∈ nodeIds w := by
            intro y hy
            obtain ⟨_, c, hc, _, ht⟩ := (hnbr_iff y).mp hy
            rw [← ht]
            exact (H2 c hc).2
          have hpush_mem : ∀ y, y ∈ (adjGetD (buildAdj w) n).filter
              (fun m => mapGetD deg m 0 == 1) ↔
              (y ∈ adjGetD (buildAdj w) n ∧ mapGetD deg y 0 = 1) := by
            intro y
            rw [List.mem_filter]
            constructor
            · intro ⟨h1, h2⟩
              exact ⟨h1, by simpa using h2⟩
            · intro ⟨h1, h2⟩
              exact ⟨h1, by simp [h2]⟩
          have hfuel' : (nodeIds w).length ≤ fuel + (result ++ [n]).length := by
            have hl : (result ++ [n]).length = result.length + 1 := by simp
            omega
          have hndr' : (result ++ [n]).Nodup := by
            rw [List.nodup_append]
            refine ⟨hndr, List.nodup_singleton n, ?_⟩
            intro a ha hb
            have hab : a = n := by simpa using hb
            exact hnr (hab ▸ ha)
          have hndq'' : (q' ++ (adjGetD (buildAdj w) n).filter
              (fun m => mapGetD deg m 0 == 1)).Nodup := by
            rw [List.nodup_append]
            refine ⟨hndq'.2, List.Nodup.filter _ hnbrs_nd, ?_⟩
            intro a ha hb
            exact hnbr_q a (List.mem_filter.mp hb).1 ha
          have hdisj' : ∀ x ∈ q' ++ (adjGetD (buildAdj w) n).filter
              (fun m => mapGetD deg m 0 == 1), x ∉ result ++ [n] := by
            intro x hx hxr
            rcases List.mem_append.mp hxr with hxr1 | hxn
            · rcases List.mem_append.mp hx with hxq | hxp
              · exact hdisj x (List.mem_cons_of_mem n hxq) hxr1
              · exact hnbr_res x (List.mem_filter.mp hxp).1 hxr1
            · have hxn' : x = n := by simpa using hxn
              rcases List.mem_append.mp hx with hxq | hxp
              · exact hndq'.1 (hxn' ▸ hxq)
              · exact hnn (hxn' ▸ (List.mem_filter.mp hxp).1)
          have hres' : ∀ x ∈ result ++ [n], x ∈ nodeIds w := by
            intro x hx
            rcases List.mem_append.mp hx with h1 | h1
            · exact hres x h1
            · have hxn : x = n := by simpa using h1
              exact hxn ▸ hnN
          have hqN' : ∀ x ∈ q' ++ (adjGetD (buildAdj w) n).filter
              (fun m => mapGetD deg m 0 == 1), x ∈ nodeIds w := by
            intro x hx
            rcases List.mem_append.mp hx with h1 | h1
            · exact hqN x (List.mem_cons_of_mem n h1)
            · exact hnbrN x (List.mem_filter.mp h1).1
          have hdeg' : ∀ x, mapGetD (kahnStep (buildAdj w) n q' deg).2 x 0 =
              ((w.connections.filter (fun c => c.targetId == x &&
                decide (c.sourceId ∉ result ++ [n]))).length : ℤ) := by
            intro x
            rw [hd1 x, hdeg x]
            have hsplit := filter_split_source w.connections x n result hnr
            by_cases hxn : x ∈ adjGetD (buildAdj w) n
            · have hE : EdgeW w n x := (hnbr_iff x).mp hxn
              have h1 := edge_count_one w H3 n x hE
              rw [if_pos hxn]
              rw [h1] at hsplit
              omega
            · have hE : ¬ EdgeW w n x := fun hE => hxn ((hnbr_iff x).mpr hE)
              have h1 := edge_count_zero w n x hnN hE
              rw [if_neg hxn]
              rw [h1, List.length_nil] at hsplit
              omega
          have hqiff' : ∀ x, x ∈ q' ++ (adjGetD (buildAdj w) n).filter
              (fun m => mapGetD deg m 0 == 1) ↔
              (x ∈ nodeIds w ∧ x ∉ result ++ [n] ∧
                mapGetD (kahnStep (buildAdj w) n q' deg).2 x 0 = 0) := by
            intro x
            constructor
            · intro hx
              refine ⟨hqN' x hx, hdisj' x hx, ?_⟩
              rw [hd1 x]
              rcases List.mem_append.mp hx with hxq | hxp
              · have hx0 := ((hqiff x).mp (List.mem_cons_of_mem n hxq)).2.2
                have hxnb : x ∉ adjGetD (buildAdj w) n :=
                  fun hnb => hnbr_q x hnb hxq
                rw [if_neg hxnb, hx0]
                omega
              · obtain ⟨hxnb, hx1⟩ := (hpush_mem x).mp hxp
                rw [if_pos hxnb, hx1]
                omega
            · intro ⟨hxN, hxr', hx0⟩
              have hxr : x ∉ result :=
                fun hc => hxr' (List.mem_append_left _ hc)
              have hxn : x ≠ n := fun he =>
                hxr' (by rw [he]; exact List.mem_append_right _ (by simp))
              rw [hd1 x] at hx0
              by_cases hxnb : x ∈ adjGetD (buildAdj w) n
              · rw [if_pos hxnb] at hx0
                have hx1 : mapGetD deg x 0 = 1 := by omega
                exact List.mem_append_right _
                  ((hpush_mem x).mpr ⟨hxnb, hx1⟩)
              · rw [if_neg hxnb] at hx0
                have hx00 : mapGetD deg x 0 = 0 := by omega
                have hxq := (hqiff x).mpr ⟨hxN, hxr, hx00⟩
                rcases List.mem_cons.mp hxq with he | hq
                · exact absurd he hxn
                · exact List.mem_append_left _ hq
          have hord' : ∀ c ∈ w.connections, c.targetId ∈ result ++ [n] →
              c.sourceId ∈ result ++ [n] ∧
                idxOf (result ++ [n]) c.sourceId <
                  idxOf (result ++ [n]) c.targetId := by
            intro c hc htc
            rcases List.mem_append.mp htc with h1 | h1
            · obtain ⟨hs, hlt⟩ := hord c hc h1
              refine ⟨List.mem_append_left _ hs, ?_⟩
              rw [idxOf_append_left result [n] _ hs,
                idxOf_append_left result [n] _ h1]
              exact hlt
            · have htn : c.targetId = n := by simpa using h1
              have hs := hclosed c hc htn
              refine ⟨List.mem_append_left _ hs, ?_⟩
              rw [idxOf_append_left result [n] _ hs, htn,
                idxOf_append_right result [n] n hnr]
              have h2 := idxOf_lt_length result c.sourceId hs
              have h3 : idxOf [n] n = 0 := by
                rw [idxOf_cons, if_pos rfl]
              omega
          rw [kahnLoop_succ, hq1]
          exact ih (q' ++ (adjGetD (buildAdj w) n).filter
              (fun m => mapGetD deg m 0 == 1)) (result ++ [n])
            (kahnStep (buildAdj w) n q' deg).2
            hfuel' hndr' hndq'' hdisj' hres' hqN' hdeg' hqiff' hord'

/-- `detectWorkflowCycles` decides the existence of a directed cycle. -/
theorem detect_iff_hasCycleW (w : WorkflowConfig) :
    detectWorkflowCycles w = true ↔ HasCycleW w := by
  rw [detect_adj_iff]
  unfold HasCycleW
  constructor
  · intro ⟨x, h⟩
    exact ⟨x, Relation.TransGen.mono
      (fun a b hab => (aedge_iff_edgeW w a b).mp hab) h⟩
  · intro ⟨x, h⟩
    exact ⟨x, Relation.TransGen.mono
      (fun a b hab => (aedge_iff_edgeW w a b).mpr hab) h⟩

/-- Under well-formedness and acyclicity, `getWorkflowTopologicalOrder`
succeeds with a duplicate-free permutation of the node ids that puts every
connection's source strictly before its target. -/
theorem topo_spec (w : WorkflowConfig)
    (H1 : (nodeIds w).Nodup)
    (H2 : ∀ c ∈ w.connections, c.sourceId ∈ nodeIds w ∧ c.targetId ∈ nodeIds w)
    (H3 : (w.connections.map (fun c => (c.sourceId, c.targetId))).Nodup)
    (HNC : ¬ HasCycleW w) :
    ∃ l, getWorkflowTopologicalOrder w = some l ∧ l.Perm (nodeIds w) ∧
      ∀ c ∈ w.connections, idxOf l c.sourceId < idxOf l c.targetId := by
  have hdet : detectWorkflowCycles w = false := by
    cases hd : detectWorkflowCycles w with
    | false => rfl
    | true => exact absurd ((detect_iff_hasCycleW w).mp hd) HNC
  have hkeys : (buildInDeg w).map Prod.fst = nodeIds w :=
    buildInDeg_keys w H1 (fun c hc => (H2 c hc).2)
  have hkeys_nd : ((buildInDeg w).map Prod.fst).Nodup := by
    rw [hkeys]; exact H1
  have hlen_deg : (buildInDeg w).length = (nodeIds w).length := by
    rw [← hkeys, List.length_map]
  have hfuel0 : (nodeIds w).length ≤
      ((buildInDeg w).length + 1) + ([] : List String).length := by
    simp [hlen_deg]
  have hq0iff : ∀ x, x ∈ ((buildInDeg w).filter
      (fun p => p.2 == 0)).map (fun p => p.1) ↔
      (x ∈ nodeIds w ∧ x ∉ ([] : List String) ∧
        mapGetD (buildInDeg w) x 0 = 0) := by
    intro x
    have h := filterZero_mem (buildInDeg w) hkeys_nd x
    constructor
    · intro hx
      obtain ⟨h1, h2⟩ := h.mp hx
      rw [hkeys] at h1
      exact ⟨h1, by simp, h2⟩
    · intro ⟨h1, _, h3⟩
      exact h.mpr ⟨by rw [hkeys]; exact h1, h3⟩
  have hq0nd : (((buildInDeg w).filter (fun p => p.2 == 0)).map
      (fun p => p.1)).Nodup := by
    have hsub : List.Sublist (((buildInDeg w).filter
        (fun p => p.2 == 0)).map (fun p => p.1))
        ((buildInDeg w).map (fun p => p.1)) :=
      (List.filter_sublist (buildInDeg w)).map (fun p => p.1)
    exact List.Nodup.sublist hsub hkeys_nd
  have hdeg0 : ∀ x, mapGetD (buildInDeg w) x 0 =
      ((w.connections.filter (fun c => c.targetId == x &&
        decide (c.sourceId ∉ ([] : List String)))).length : ℤ) := by
    intro x
    rw [buildInDeg_getD w x]
    have hcong : w.connections.filter (fun c => c.targetId == x &&
        decide (c.sourceId ∉ ([] : List String))) =
        w.connections.filter (fun c => c.targetId == x) := by
      apply List.filter_congr
      intro c _
      simp
    rw [hcong]
  have hmain := kahn_inv w H1 H2 H3 HNC ((buildInDeg w).length + 1)
      (((buildInDeg w).filter (fun p => p.2 == 0)).map (fun p => p.1))
      [] (buildInDeg w) hfuel0 List.nodup_nil hq0nd
      (fun x _ => by simp)
      (fun x hx => by simp at hx)
      (fun x hx => ((hq0iff x).mp hx).1)
      hdeg0 hq0iff
      (fun c _ htc => absurd htc (by simp))
  obtain ⟨hnd, hmem, hords⟩ := hmain
  have hperm : (kahnLoop (buildAdj w) ((buildInDeg w).length + 1)
      (((buildInDeg w).filter (fun p => p.2 == 0)).map (fun p => p.1))
      [] (buildInDeg w)).Perm (nodeIds w) :=
    (List.perm_ext_iff_of_nodup hnd H1).mpr hmem
  have hlenr : (kahnLoop (buildAdj w) ((buildInDeg w).length + 1)
      (((buildInDeg w).filter (fun p => p.2 == 0)).map (fun p => p.1))
      [] (buildInDeg w)).length = w.nodes.length := by
    rw [hperm.length_eq]
    unfold nodeIds
    rw [List.length_map]
  have hbeq : ((kahnLoop (buildAdj w) ((buildInDeg w).length + 1)
      (((buildInDeg w).filter (fun p => p.2 == 0)).map (fun p => p.1))
      [] (buildInDeg w)).length == w.nodes.length) = true := by
    rw [hlenr]
    simp
  refine ⟨kahnLoop (buildAdj w) ((buildInDeg w).length + 1)
      (((buildInDeg w).filter (fun p => p.2 == 0)).map (fun p => p.1))
      [] (buildInDeg w), ?_, hperm, hords⟩
  unfold getWorkflowTopologicalOrder
  rw [hdet]
  show (if ((kahnLoop (buildAdj w) ((buildInDeg w).length + 1)
      (((buildInDeg w).filter (fun p => p.2 == 0)).map (fun p => p.1))
      [] (buildInDeg w)).length == w.nodes.length) = true
    then some (kahnLoop (buildAdj w) ((buildInDeg w).length + 1)
      (((buildInDeg w).filter (fun p => p.2 == 0)).map (fun p => p.1))
      [] (buildInDeg w))
    else Option.none) = _
  rw [if_pos hbeq]

/-! ## Claims C2 and C3 -/

/-- A workflow whose only irregularity is a duplicated parallel connection:
n1 -> n2 twice.  The graph is acyclic, but the adjacency `Set` deduplicates
the edge while the in-degree map counts both connections, so n2's in-degree
never reaches zero. -/
def dupEdgeWorkflow : WorkflowConfig :=
  { id := "wf-dupe", name := "Duplicate Edges"
    nodes := [{ id := "n1", type := NodeType.agent, agentId := some "a1" },
              { id := "n2", type := NodeType.agent, agentId := some "a2" }]
    connections := [{ id := "c1", sourceId := "n1", targetId := "n2" },
                    { id := "c2", sourceId := "n1", targetId := "n2" }] }

/-- A three-node chain a -> b -> c whose a -> b connection is duplicated. -/
def dupEdgeWorkflow3 : WorkflowConfig :=
  { id := "wf-dupe3", name := "Duplicate Edges 3"
    nodes := [{ id := "a", type := NodeType.agent, agentId := some "a1" },
              { id := "b", type := NodeType.agent, agentId := some "a2" },
              { id := "c", type := NodeType.agent, agentId := some "a3" }]
    connections := [{ id := "c1", sourceId := "a", targetId := "b" },
                    { id := "c2", sourceId := "a", targetId := "b" },
                    { id := "c3", sourceId := "b", targetId := "c" }] }

/-- C2 counterexample: `dupEdgeWorkflow` has at least one connection and its
connection graph contains no directed cycle, yet `getWorkflowTopologicalOrder`
returns `null` instead of the claimed permutation: the duplicated parallel
connection n1 -> n2 is deduplicated by the adjacency set but double-counted by
the in-degree map, so n2 is never enqueued and the result covers only one of
the two nodes. -/
theorem claim_C2_counterexample :
    ¬ HasCycleW dupEdgeWorkflow ∧ dupEdgeWorkflow.connections ≠ [] ∧
      getWorkflowTopologicalOrder dupEdgeWorkflow = Option.none :=
  ⟨fun h => absurd ((detect_iff_hasCycleW dupEdgeWorkflow).mpr h) (by decide),
   by decide, by decide⟩

/-- C2 (amended): for every workflow graph whose node ids are pairwise
distinct, whose connection endpoints resolve to nodes, and whose connections
contain no duplicated (source, target) pair, if the graph has no directed
cycle then `getWorkflowTopologicalOrder` returns a permutation of all node ids
in which every connection's source index strictly precedes its target index.
(The original claim omitted the first three hypotheses; `dupEdgeWorkflow`
shows the duplicate-pair one is necessary, and the claim's "at least one
connection" premise is not needed.) -/
theorem claim_C2_amended (w : WorkflowConfig)
    (H1 : (nodeIds w).Nodup)
    (H2 : ∀ c ∈ w.connections, c.sourceId ∈ nodeIds w ∧ c.targetId ∈ nodeIds w)
    (H3 : (w.connections.map (fun c => (c.sourceId, c.targetId))).Nodup)
    (HNC : ¬ HasCycleW w) :
    ∃ l, getWorkflowTopologicalOrder w = some l ∧ l.Perm (nodeIds w) ∧
      ∀ c ∈ w.connections, idxOf l c.sourceId < idxOf l c.targetId :=
  topo_spec w H1 H2 H3 HNC

/-- Witness for `claim_C2_amended` at the three-node chain n1 -> n2 -> n3. -/
theorem claim_C2_amended_witness :
    ((nodeIds agentChainWorkflow).Nodup ∧
      (∀ c ∈ agentChainWorkflow.connections,
        c.sourceId ∈ nodeIds agentChainWorkflow ∧
          c.targetId ∈ nodeIds agentChainWorkflow) ∧
      (agentChainWorkflow.connections.map
        (fun c => (c.sourceId, c.targetId))).Nodup ∧
      ¬ HasCycleW agentChainWorkflow) ∧
    (∃ l, getWorkflowTopologicalOrder agentChainWorkflow = some l ∧
      l.Perm (nodeIds agentChainWorkflow) ∧
      ∀ c ∈ agentChainWorkflow.connections,
        idxOf l c.sourceId < idxOf l c.targetId) :=
  ⟨⟨by decide, by decide, by decide,
    fun h => absurd ((detect_iff_hasCycleW agentChainWorkflow).mpr h)
      (by decide)⟩,
   claim_C2_amended agentChainWorkflow (by decide) (by decide) (by decide)
     (fun h => absurd ((detect_iff_hasCycleW agentChainWorkflow).mpr h)
       (by decide))⟩

/-- C3 counterexample: on `dupEdgeWorkflow3` (chain a -> b -> c with the
a -> b connection duplicated) `detectWorkflowCycles` returns false, yet
`getWorkflowTopologicalOrder` returns `null` — refuting the claimed
equivalence "hasCycle = true iff topologicalOrder = null" and in particular
its "false implies non-null" half. -/
theorem claim_C3_counterexample :
    detectWorkflowCycles dupEdgeWorkflow3 = false ∧
      getWorkflowTopologicalOrder dupEdgeWorkflow3 = Option.none :=
  ⟨by decide, by decide⟩

/-- C3 (amended): the "hasCycle implies null order" direction is
unconditional (it is the guard of `getWorkflowTopologicalOrder`), and the full
equivalence — `detectWorkflowCycles` returns true iff
`getWorkflowTopologicalOrder` returns `null` — holds once the workflow graph
is well-formed: pairwise-distinct node ids, endpoints resolving to nodes, and
no duplicated (source, target) connection pair.  The original claim asserted
the equivalence for every graph; `dupEdgeWorkflow3` refutes that. -/
theorem claim_C3_amended (w : WorkflowConfig)
    (H1 : (nodeIds w).Nodup)
    (H2 : ∀ c ∈ w.connections, c.sourceId ∈ nodeIds w ∧ c.targetId ∈ nodeIds w)
    (H3 : (w.connections.map (fun c => (c.sourceId, c.targetId))).Nodup) :
    detectWorkflowCycles w = true ↔
      getWorkflowTopologicalOrder w = Option.none := by
  constructor
  · intro hdet
    unfold getWorkflowTopologicalOrder
    rw [if_pos hdet]
  · intro hnone
    by_contra hdet
    have hd : detectWorkflowCycles w = false := by
      cases hb : detectWorkflowCycles w with
      | false => rfl
      | true => exact absurd hb hdet
    have HNC : ¬ HasCycleW w := fun h =>
      absurd ((detect_iff_hasCycleW w).mpr h) (by rw [hd]; simp)
    obtain ⟨l, hl, _, _⟩ := topo_spec w H1 H2 H3 HNC
    rw [hl] at hnone
    exact Option.noConfusion hnone

/-- Witness for `claim_C3_amended` at the two-node cyclic workflow: both
sides of the equivalence are true there. -/
theorem claim_C3_amended_witness :
    ((nodeIds cyclicWorkflow).Nodup ∧
      (∀ c ∈ cyclicWorkflow.connections,
        c.sourceId ∈ nodeIds cyclicWorkflow ∧
          c.targetId ∈ nodeIds cyclicWorkflow) ∧
      (cyclicWorkflow.connections.map
        (fun c => (c.sourceId, c.targetId))).Nodup) ∧
    (detectWorkflowCycles cyclicWorkflow = true ↔
      getWorkflowTopologicalOrder cyclicWorkflow = Option.none) :=
  ⟨⟨by decide, by decide, by decide⟩,
   claim_C3_amended cyclicWorkflow (by decide) (by decide) (by decide)⟩

end AAS
